/-
  Verification of the resume-parsing and competency-scoring pipeline of the
  smart-recruitment-agent repository (src/lib/resumeParser.ts and
  src/lib/competencyScorer.ts).

  Strings are modelled as `List Char`; JavaScript numbers are modelled as
  exact rationals (`ℚ`) with `Math.round x` embedded as `⌊x + 1/2⌋`.
  JavaScript regular-expression behaviour is embedded explicitly where the
  source relies on it, including the `lastIndex` state carried by the
  module-level `g`-flagged education patterns and the failure of
  `new RegExp` on the pattern built from the keyword "C++".
-/
import Mathlib

namespace SmartRec

/-! ### JavaScript string primitives -/

/-- Embeds `String.prototype.toLowerCase` (ASCII letters; the vocabularies and
inputs in this development are ASCII). -/
def jsToLower (s : List Char) : List Char := s.map Char.toLower

/-- Whitespace test used for `trim` and for the regex class `\s`. -/
def isWs (c : Char) : Bool := c.isWhitespace

/-- Embeds `String.prototype.trim`. -/
def jsTrim (s : List Char) : List Char :=
  ((s.dropWhile isWs).reverse.dropWhile isWs).reverse

/-- Embeds `hay.includes(ned)`: `ned` occurs as a contiguous substring of
`hay` (the empty needle always occurs). -/
def containsSub (hay ned : List Char) : Bool :=
  (List.range (hay.length + 1)).any fun i => ned.isPrefixOf (hay.drop i)

/-- Embeds `Math.round`: round half toward positive infinity. -/
def jsRound (x : ℚ) : ℤ := ⌊x + 1/2⌋

/-! ### Levenshtein distance

`levTake s t i j` is the textbook edit-distance table: the distance between
the first `i` characters of `s` and the first `j` characters of `t`, with the
recurrence written exactly as in `getEditDistance` (substitution test first,
then `min(min(diagonal, left), up) + 1`).  `getEditDistance` below embeds the
source's rolling-array loop; the two are proved equal. -/

/-- Classic Levenshtein DP table on prefixes, indices `i ≤ s.length`,
`j ≤ t.length`. -/
def levTake (s t : List Char) : Nat → Nat → Nat
  | 0, j => j
  | i+1, 0 => i+1
  | i+1, j+1 =>
    if s.getD i ' ' = t.getD j ' ' then levTake s t i j
    else min (min (levTake s t i j) (levTake s t (i+1) j)) (levTake s t i (j+1)) + 1
termination_by i j => (i, j)

theorem levTake_zero_left (s t : List Char) (j : Nat) : levTake s t 0 j = j := by
  cases j <;> rw [levTake]

theorem levTake_succ_zero (s t : List Char) (i : Nat) : levTake s t (i+1) 0 = i+1 := by
  rw [levTake]

/-- The edit-distance recurrence is symmetric in its two strings. -/
theorem levTake_symm (s t : List Char) (i j : Nat) : levTake s t i j = levTake t s j i := by
  induction i, j using levTake.induct s t with
  | case1 j => rw [levTake_zero_left]; cases j with
    | zero => rw [levTake]
    | succ j => rw [levTake_succ_zero]
  | case2 i => rw [levTake_succ_zero, levTake_zero_left]
  | case3 i j h ih =>
    rw [levTake, if_pos h, levTake, if_pos h.symm, ih]
  | case4 i j h ih1 ih2 ih3 =>
    have h' : ¬ t.getD j ' ' = s.getD i ' ' := fun hh => h hh.symm
    rw [levTake, if_neg h, levTake, if_neg h', ih1, ih2, ih3]
    rw [min_right_comm]

/-- The edit distance between prefixes of lengths `i` and `j` is at most
`max i j`. -/
theorem levTake_le_max (s t : List Char) (i j : Nat) : levTake s t i j ≤ max i j := by
  induction i, j using levTake.induct s t with
  | case1 j => rw [levTake_zero_left]; exact Nat.le_max_right 0 j
  | case2 i => rw [levTake_succ_zero]; exact Nat.le_max_left (i+1) 0
  | case3 i j h ih =>
    rw [levTake, if_pos h]
    exact le_trans ih (max_le_max (Nat.le_succ i) (Nat.le_succ j))
  | case4 i j h ih1 ih2 ih3 =>
    rw [levTake, if_neg h]
    have h1 : min (min (levTake s t i j) (levTake s t (i+1) j)) (levTake s t i (j+1))
        ≤ levTake s t i j := le_trans (min_le_left _ _) (min_le_left _ _)
    have h2 : levTake s t i j + 1 ≤ max i j + 1 := Nat.succ_le_succ ih1
    calc min (min (levTake s t i j) (levTake s t (i+1) j)) (levTake s t i (j+1)) + 1
        ≤ levTake s t i j + 1 := Nat.succ_le_succ h1
      _ ≤ max i j + 1 := h2
      _ = max (i+1) (j+1) := (Nat.succ_max_succ i j).symm

/-- Classic Levenshtein edit distance between two whole strings. -/
def levenshteinDist (s t : List Char) : Nat := levTake s t s.length t.length

/-! ### The source's rolling-array edit-distance loop

`getEditDistance` in `competencyScorer.ts` keeps one array `costs` of length
`s2.length + 1`; `levRow` embeds one pass of the inner `j` loop (producing row
`i` of the table from row `i-1`), and `edLoop` embeds the outer `i` loop. -/

/-- One inner-loop pass of the source's `getEditDistance`: given the character
`c = s1[i-1]`, the remaining part of `s2`, the matching suffix of the previous
row, and `lastValue` (the entry `D[i][j-1]` already computed), produce the
corresponding suffix of row `i`. -/
def levRow (c : Char) : List Char → List Nat → Nat → List Nat
  | [], _, last => [last]
  | _ :: _, [], last => [last]
  | y :: ys, diag :: prevTail, last =>
    let up := prevTail.headD 0
    let newValue := if c = y then diag else min (min diag last) up + 1
    last :: levRow c ys prevTail newValue

/-- The outer loop of the source's `getEditDistance`: fold `levRow` over the
characters of `s1`, starting from row `0 = [0, 1, …, s2.length]`. -/
def edLoop (t : List Char) : List Char → List Nat → Nat → List Nat
  | [], prev, _ => prev
  | c :: cs, prev, i => edLoop t cs (levRow c t prev i) (i + 1)

/-- Embeds `getEditDistance(s1, s2)` from `competencyScorer.ts`: run the
rolling-array loops and read `costs[s2.length]`. -/
def getEditDistance (s1 s2 : List Char) : Nat :=
  (edLoop s2 s1 (List.range (s2.length + 1)) 1).getD s2.length 0

theorem levRow_eq_map (s t : List Char) (i : Nat) :
    ∀ (q : List Char) (k : Nat), t.drop k = q →
      levRow (s.getD i ' ') q ((List.range' k (q.length + 1)).map (levTake s t i))
          (levTake s t (i+1) k)
        = (List.range' k (q.length + 1)).map (levTake s t (i+1)) := by
  intro q
  induction q with
  | nil =>
    intro k _
    simp only [List.length_nil, Nat.zero_add, List.range'_one, List.map_cons, List.map_nil]
    rw [levRow]
  | cons y ys ih =>
    intro k hk
    have hk1 : t.drop (k + 1) = ys := by
      have h2 : (t.drop k).drop 1 = t.drop (k + 1) := by
        rw [List.drop_drop]
      rw [← h2, hk, List.drop_one, List.tail_cons]
    have hky : t.getD k ' ' = y := by
      rw [List.getD_eq_getElem?_getD, ← List.head?_drop, hk, List.head?_cons, Option.getD_some]
    have hlen : (y :: ys).length + 1 = (ys.length + 1) + 1 := by simp
    rw [hlen, List.range'_succ, List.map_cons, List.map_cons, levRow]
    have hhead : ((List.range' (k+1) (ys.length + 1)).map (levTake s t i)).headD 0
        = levTake s t i (k+1) := by
      rw [List.range'_succ, List.map_cons, List.headD_cons]
    rw [hhead]
    have hnew : (if s.getD i ' ' = y then levTake s t i k
        else min (min (levTake s t i k) (levTake s t (i+1) k)) (levTake s t i (k+1)) + 1)
        = levTake s t (i+1) (k+1) := by
      rw [levTake, hky]
    rw [hnew, ih (k+1) hk1]

theorem edLoop_eq_map (s t : List Char) :
    ∀ (r : List Char) (m : Nat), s.drop m = r → m ≤ s.length →
      edLoop t r ((List.range' 0 (t.length + 1)).map (levTake s t m)) (m+1)
        = (List.range' 0 (t.length + 1)).map (levTake s t s.length) := by
  intro r
  induction r with
  | nil =>
    intro m hm hle
    have : s.length ≤ m := by
      have := congrArg List.length hm
      rw [List.length_drop] at this
      simp at this
      omega
    have hm' : m = s.length := le_antisymm hle this
    rw [edLoop, hm']
  | cons c cs ih =>
    intro m hm hle
    have hm1 : s.drop (m + 1) = cs := by
      have h2 : (s.drop m).drop 1 = s.drop (m + 1) := by rw [List.drop_drop]
      rw [← h2, hm, List.drop_one, List.tail_cons]
    have hmc : s.getD m ' ' = c := by
      rw [List.getD_eq_getElem?_getD, ← List.head?_drop, hm, List.head?_cons, Option.getD_some]
    have hlt : m < s.length := by
      have := congrArg List.length hm
      rw [List.length_drop] at this
      simp at this
      omega
    rw [edLoop]
    have hrow := levRow_eq_map s t m t 0 (List.drop_zero t)
    rw [levTake_succ_zero] at hrow
    have hq : t.drop 0 = t := List.drop_zero t
    rw [hmc] at hrow
    rw [hrow, ih (m+1) hm1 hlt]

/-- The source's rolling-array loop computes the classic Levenshtein
distance. -/
theorem getEditDistance_eq (s t : List Char) :
    getEditDistance s t = levTake s t s.length t.length := by
  unfold getEditDistance
  have hinit : List.range (t.length + 1)
      = (List.range' 0 (t.length + 1)).map (levTake s t 0) := by
    rw [List.range_eq_range']
    have : ∀ x ∈ List.range' 0 (t.length + 1), x = levTake s t 0 x := by
      intro x _
      rw [levTake_zero_left]
    rw [List.map_congr_left (fun x hx => (this x hx).symm)]
    simp
  rw [hinit]
  have h0 : (0 : Nat) + 1 = 1 := rfl
  rw [← h0, edLoop_eq_map s t s 0 (List.drop_zero s) (Nat.zero_le _)]
  have hlen : ((List.range' 0 (t.length + 1)).map (levTake s t s.length)).length
      = t.length + 1 := by
    rw [List.length_map, List.length_range']
  rw [List.getD_eq_getElem?_getD, List.getElem?_map]
  have hget : (List.range' 0 (t.length + 1))[t.length]? = some t.length := by
    rw [List.getElem?_range' ]
    · simp
    · omega
  rw [hget]
  simp

/-! ### String similarity (`calculateSimilarity` in `competencyScorer.ts`) -/

/-- The normalization applied by `calculateSimilarity`:
`str.toLowerCase().trim()`. -/
def normalized (s : List Char) : List Char := jsTrim (jsToLower s)

/-- The string picked as `longer` by `calculateSimilarity`
(`s1.length > s2.length ? s1 : s2`). -/
def longerOf (s1 s2 : List Char) : List Char := if s2.length < s1.length then s1 else s2

/-- The string picked as `shorter` by `calculateSimilarity`. -/
def shorterOf (s1 s2 : List Char) : List Char := if s2.length < s1.length then s2 else s1

/-- Embeds `calculateSimilarity(str1, str2)` from `competencyScorer.ts`:
exact match after normalization gives 1, containment gives 0.85, otherwise
`1 - editDistance / longer.length` (with the source's guard returning 1 when
`longer` is empty). -/
def calculateSimilarity (str1 str2 : List Char) : ℚ :=
  if normalized str1 = normalized str2 then 1
  else if containsSub (normalized str1) (normalized str2)
      || containsSub (normalized str2) (normalized str1) then 0.85
  else if (longerOf (normalized str1) (normalized str2)).length = 0 then 1
  else 1 - (getEditDistance (shorterOf (normalized str1) (normalized str2))
        (longerOf (normalized str1) (normalized str2)) : ℚ)
      / ((longerOf (normalized str1) (normalized str2)).length : ℚ)

/-- Specification-side similarity, written from the spec's words (§4.3):
rule 1 exact case-insensitive whitespace-trimmed match gives 1.0; rule 2
containment after normalization gives 0.85; rule 3 classic Levenshtein edit
distance normalized by the longer string's length. -/
def similaritySpec (a b : List Char) : ℚ :=
  if normalized a = normalized b then 1
  else if containsSub (normalized a) (normalized b)
      || containsSub (normalized b) (normalized a) then 0.85
  else 1 - (levenshteinDist (normalized a) (normalized b) : ℚ)
      / (max (normalized a).length (normalized b).length : ℚ)

theorem containsSub_nil (s : List Char) : containsSub s [] = true := by
  apply List.any_eq_true.mpr
  refine ⟨0, by simp, ?_⟩
  rw [List.drop_zero]
  cases s <;> rfl

theorem longerOf_length (s1 s2 : List Char) :
    (longerOf s1 s2).length = max s1.length s2.length := by
  unfold longerOf
  split
  · exact (Nat.max_eq_left (Nat.le_of_lt (by omega))).symm
  · exact (Nat.max_eq_right (by omega)).symm

theorem shorterOf_length_le (s1 s2 : List Char) :
    (shorterOf s1 s2).length ≤ (longerOf s1 s2).length := by
  unfold shorterOf longerOf
  split <;> omega

theorem getEditDistance_longerOf (s1 s2 : List Char) :
    getEditDistance (shorterOf s1 s2) (longerOf s1 s2) = levenshteinDist s1 s2 := by
  unfold shorterOf longerOf levenshteinDist
  split
  · rw [getEditDistance_eq, levTake_symm]
  · rw [getEditDistance_eq]

theorem getEditDistance_le_longerOf (s1 s2 : List Char) :
    getEditDistance (shorterOf s1 s2) (longerOf s1 s2) ≤ (longerOf s1 s2).length := by
  rw [getEditDistance_eq]
  calc levTake (shorterOf s1 s2) (longerOf s1 s2) (shorterOf s1 s2).length
        (longerOf s1 s2).length
      ≤ max (shorterOf s1 s2).length (longerOf s1 s2).length := levTake_le_max _ _ _ _
    _ = (longerOf s1 s2).length := Nat.max_eq_right (shorterOf_length_le s1 s2)

theorem calculateSimilarity_le_one (a b : List Char) : calculateSimilarity a b ≤ 1 := by
  unfold calculateSimilarity
  split_ifs with h1 h2 h3
  · exact le_refl 1
  · norm_num
  · exact le_refl 1
  · have hd : (0 : ℚ) ≤ (getEditDistance (shorterOf (normalized a) (normalized b))
        (longerOf (normalized a) (normalized b)) : ℚ)
        / ((longerOf (normalized a) (normalized b)).length : ℚ) :=
      div_nonneg (Nat.cast_nonneg _) (Nat.cast_nonneg _)
    linarith

theorem calculateSimilarity_nonneg (a b : List Char) : 0 ≤ calculateSimilarity a b := by
  unfold calculateSimilarity
  split_ifs with h1 h2 h3
  · norm_num
  · norm_num
  · norm_num
  · have hpos : (0 : ℚ) < ((longerOf (normalized a) (normalized b)).length : ℚ) := by
      have : 0 < (longerOf (normalized a) (normalized b)).length := Nat.pos_of_ne_zero h3
      exact_mod_cast this
    have hle : ((getEditDistance (shorterOf (normalized a) (normalized b))
        (longerOf (normalized a) (normalized b)) : ℚ))
        ≤ ((longerOf (normalized a) (normalized b)).length : ℚ) := by
      exact_mod_cast getEditDistance_le_longerOf (normalized a) (normalized b)
    have := (div_le_one hpos).mpr hle
    linarith

theorem calculateSimilarity_eq_spec (a b : List Char) :
    calculateSimilarity a b = similaritySpec a b := by
  unfold calculateSimilarity similaritySpec
  split_ifs with h1 h2 h3
  · rfl
  · rfl
  · exfalso
    rw [longerOf_length] at h3
    have ha : (normalized a).length = 0 := by omega
    have hb : (normalized b).length = 0 := by omega
    exact h1 (by rw [List.length_eq_zero.mp ha, List.length_eq_zero.mp hb])
  · rw [getEditDistance_longerOf, longerOf_length, Nat.cast_max]

theorem calculateSimilarity_symm (a b : List Char) :
    calculateSimilarity a b = calculateSimilarity b a := by
  rw [calculateSimilarity_eq_spec, calculateSimilarity_eq_spec]
  unfold similaritySpec
  by_cases h1 : normalized a = normalized b
  · rw [if_pos h1, if_pos h1.symm]
  · have h1' : ¬ normalized b = normalized a := fun hh => h1 hh.symm
    rw [if_neg h1, if_neg h1']
    by_cases h2 : (containsSub (normalized a) (normalized b)
        || containsSub (normalized b) (normalized a)) = true
    · have h2' : (containsSub (normalized b) (normalized a)
          || containsSub (normalized a) (normalized b)) = true := by
        rw [Bool.or_comm] at h2; exact h2
      rw [if_pos h2, if_pos h2']
    · have h2' : ¬ (containsSub (normalized b) (normalized a)
          || containsSub (normalized a) (normalized b)) = true := by
        rw [Bool.or_comm] at h2; exact h2
      rw [if_neg h2, if_neg h2']
      unfold levenshteinDist
      rw [levTake_symm, max_comm ((normalized a).length : ℚ) ((normalized b).length : ℚ)]

/-! ### Competency scorer data model (`competencyScorer.ts`) -/

/-- Element of the `extractedSkills` input of `scoreCompetencies`. -/
structure ExtractedSkill where
  skill : List Char
  confidence : ℚ
  category : List Char
deriving DecidableEq

/-- The four proficiency levels. -/
inductive ProficiencyLevel where
  | Beginner
  | Intermediate
  | Advanced
  | Expert
deriving DecidableEq

/-- The `CompetencyMatch` record of `competencyScorer.ts`. -/
structure CompetencyMatch where
  competency : List Char
  extractedSkill : List Char
  confidenceScore : ℚ
  proficiencyLevel : ProficiencyLevel
  gap : Bool
deriving DecidableEq

/-- The `ScoringResult` record of `competencyScorer.ts`. -/
structure ScoringResult where
  overallFitScore : ℤ
  rankingScore : ℤ
  competencyMatches : List CompetencyMatch
  skillGaps : List (List Char)
  strengths : List (List Char)
  recommendations : List Char
  culturalFitIndex : ℕ
deriving DecidableEq

/-- Keyword cues of `PROFICIENCY_LEVELS.expert`. -/
def PROFICIENCY_expert : List (List Char) :=
  ["expert".data, "senior".data, "lead".data, "architect".data, "10+".data, "years".data]

/-- Keyword cues of `PROFICIENCY_LEVELS.advanced`. -/
def PROFICIENCY_advanced : List (List Char) :=
  ["advanced".data, "proficient".data, "5-10".data, "years".data]

/-- Keyword cues of `PROFICIENCY_LEVELS.intermediate`. -/
def PROFICIENCY_intermediate : List (List Char) :=
  ["intermediate".data, "competent".data, "2-5".data, "years".data]

/-- Embeds `inferProficiencyLevel`: case-insensitive substring search against
the expert, advanced, then intermediate cue lists; default Beginner. -/
def inferProficiencyLevel (skill : List Char) : ProficiencyLevel :=
  if PROFICIENCY_expert.any (fun kw => containsSub (jsToLower skill) kw) then .Expert
  else if PROFICIENCY_advanced.any (fun kw => containsSub (jsToLower skill) kw) then .Advanced
  else if PROFICIENCY_intermediate.any (fun kw => containsSub (jsToLower skill) kw) then
    .Intermediate
  else .Beginner

/-! ### Competency matching -/

/-- One iteration of the `extractedSkills.forEach` loop in
`matchCompetencies`: the accumulator is the mutable pair
`(bestMatch, bestSimilarity)`. -/
def bestMatchStep (required : List Char) (acc : Option CompetencyMatch × ℚ)
    (extracted : ExtractedSkill) : Option CompetencyMatch × ℚ :=
  let similarity := calculateSimilarity required extracted.skill
  if acc.2 < similarity ∧ (0.5 : ℚ) < similarity then
    (some ⟨required, extracted.skill, similarity * extracted.confidence,
      inferProficiencyLevel extracted.skill, false⟩, similarity)
  else acc

/-- The full inner loop of `matchCompetencies` for one required competency,
starting from `bestMatch = null`, `bestSimilarity = 0`. -/
def findBestMatch (required : List Char) (extractedSkills : List ExtractedSkill) :
    Option CompetencyMatch × ℚ :=
  extractedSkills.foldl (bestMatchStep required) (none, 0)

/-- The gap record pushed when no skill clears the threshold. -/
def gapEntry (required : List Char) : CompetencyMatch :=
  ⟨required, [], 0, .Beginner, true⟩

/-- The `CompetencyMatch` pushed for one required competency. -/
def matchOne (extractedSkills : List ExtractedSkill) (required : List Char) : CompetencyMatch :=
  match (findBestMatch required extractedSkills).1 with
  | some m => m
  | none => gapEntry required

/-- The comparator `(a, b) => b.confidenceScore - a.confidenceScore` of the
final sort, as a stable-sort order: `a` may precede `b` iff
`b.confidenceScore ≤ a.confidenceScore`. -/
def byConfidenceDesc (a b : CompetencyMatch) : Bool :=
  decide (b.confidenceScore ≤ a.confidenceScore)

/-- Embeds `matchCompetencies`: one entry per required competency, then an
in-place stable sort descending by `confidenceScore`. -/
def matchCompetencies (extractedSkills : List ExtractedSkill)
    (requiredCompetencies : List (List Char)) : List CompetencyMatch :=
  (requiredCompetencies.map (matchOne extractedSkills)).mergeSort byConfidenceDesc

/-- Embeds `identifySkillGaps` (the second parameter is unused in the
source too). -/
def identifySkillGaps (competencyMatches : List CompetencyMatch)
    (_requiredCompetencies : List (List Char)) : List (List Char) :=
  (competencyMatches.filter (fun m => m.gap)).map (fun m => m.competency)

/-- Rendering of a proficiency level, for the strength strings. -/
def profString : ProficiencyLevel → List Char
  | .Beginner => "Beginner".data
  | .Intermediate => "Intermediate".data
  | .Advanced => "Advanced".data
  | .Expert => "Expert".data

/-- Embeds `identifyStrengths`. -/
def identifyStrengths (competencyMatches : List CompetencyMatch) : List (List Char) :=
  ((competencyMatches.filter
      (fun m => !m.gap && decide ((0.7 : ℚ) < m.confidenceScore))).take 5).map
    (fun m => m.extractedSkill ++ " (".data ++ profString m.proficiencyLevel ++ ")".data)

/-- Embeds `assessCulturalFit`: 50 plus the four keyword bonuses plus the
capped soft-skill bonus, the total capped at 100. -/
def assessCulturalFit (resumeText : List Char) (extractedSkills : List ExtractedSkill) : ℕ :=
  let text := jsToLower resumeText
  min 100 (50
    + (if containsSub text "agile".data || containsSub text "scrum".data
        || containsSub text "sprint".data then 10 else 0)
    + (if containsSub text "collaborate".data || containsSub text "teamwork".data
        || containsSub text "cross-functional".data then 10 else 0)
    + (if containsSub text "innovation".data || containsSub text "creative".data then 5 else 0)
    + (if containsSub text "leadership".data || containsSub text "mentor".data then 8 else 0)
    + min ((extractedSkills.filter (fun s => decide (s.category = "soft".data))).length * 2) 15)

/-- Embeds `calculateOverallFitScore`. -/
def calculateOverallFitScore (competencyMatches : List CompetencyMatch)
    (totalRequired : ℕ) : ℤ :=
  if totalRequired = 0 then 50
  else
    jsRound ((((competencyMatches.filter (fun m => !m.gap)).length : ℚ)
          / (totalRequired : ℚ) * 100) * 0.6
      + ((competencyMatches.foldl (fun sum m => sum + m.confidenceScore) 0)
          / (totalRequired : ℚ) * 100) * 0.4)

/-- Embeds `calculateRankingScore`. -/
def calculateRankingScore (overallFit : ℤ) (culturalFit : ℕ) (gapCount : ℕ) : ℤ :=
  jsRound ((overallFit : ℚ) * 0.5 + (culturalFit : ℚ) * 0.3
    + max 0 ((1 - (gapCount : ℚ) * 0.15) * 100) * 0.2)

/-- Embeds `generateRecommendations` (fixed decision table, first match
wins). -/
def generateRecommendations (overallFitScore : ℤ) (skillGaps : List (List Char))
    (culturalFit : ℕ) : List Char :=
  if 80 < overallFitScore ∧ 75 < culturalFit then
    "Highly Recommended - Schedule Interview".data
  else if 65 < overallFitScore ∧ skillGaps.length ≤ 2 then
    "Recommended - Consider for Technical Round".data
  else if 50 < overallFitScore then
    "Potential Fit - Request Additional Info".data
  else if 5 < skillGaps.length then
    "Requires Training - Consider for Entry Level".data
  else
    "Not Recommended - Skill Gap Too Large".data

/-- Embeds `scoreCompetencies`, the exported entry point of
`competencyScorer.ts`. -/
def scoreCompetencies (extractedSkills : List ExtractedSkill)
    (requiredCompetencies : List (List Char)) (resumeText : List Char) : ScoringResult :=
  let competencyMatches := matchCompetencies extractedSkills requiredCompetencies
  let skillGaps := identifySkillGaps competencyMatches requiredCompetencies
  let strengths := identifyStrengths competencyMatches
  let culturalFitIndex := assessCulturalFit resumeText extractedSkills
  let overallFitScore := calculateOverallFitScore competencyMatches requiredCompetencies.length
  let rankingScore := calculateRankingScore overallFitScore culturalFitIndex skillGaps.length
  let recommendations := generateRecommendations overallFitScore skillGaps culturalFitIndex
  ⟨overallFitScore, rankingScore, competencyMatches, skillGaps, strengths,
    recommendations, culturalFitIndex⟩

/-! ### Characterization of the matching loop -/

theorem foldl_bestMatchStep_acc_none (req : List Char) :
    ∀ (skills : List ExtractedSkill) (acc : Option CompetencyMatch × ℚ),
      (skills.foldl (bestMatchStep req) acc).1 = none → acc.1 = none := by
  intro skills
  induction skills with
  | nil => intro acc h; exact h
  | cons s ss ih =>
    intro acc h
    rw [List.foldl_cons] at h
    have h2 := ih _ h
    simp only [bestMatchStep] at h2
    by_cases hc : acc.2 < calculateSimilarity req s.skill
        ∧ (0.5 : ℚ) < calculateSimilarity req s.skill
    · rw [if_pos hc] at h2
      exact absurd h2 (by simp)
    · rw [if_neg hc] at h2
      exact h2

theorem foldl_bestMatchStep_none (req : List Char) :
    ∀ (skills : List ExtractedSkill) (acc : Option CompetencyMatch × ℚ),
      ((skills.foldl (bestMatchStep req) acc).1 = none ↔
        acc.1 = none ∧ ∀ s ∈ skills,
          ¬ (acc.2 < calculateSimilarity req s.skill
            ∧ (0.5 : ℚ) < calculateSimilarity req s.skill)) := by
  intro skills
  induction skills with
  | nil => intro acc; simp
  | cons s ss ih =>
    intro acc
    rw [List.foldl_cons]
    by_cases hc : acc.2 < calculateSimilarity req s.skill
        ∧ (0.5 : ℚ) < calculateSimilarity req s.skill
    · have hstep : bestMatchStep req acc s
          = (some ⟨req, s.skill, calculateSimilarity req s.skill * s.confidence,
              inferProficiencyLevel s.skill, false⟩, calculateSimilarity req s.skill) := by
        simp only [bestMatchStep]
        rw [if_pos hc]
      rw [hstep]
      constructor
      · intro h
        have := foldl_bestMatchStep_acc_none req ss _ h
        exact absurd this (by simp)
      · rintro ⟨-, hall⟩
        exact absurd hc (hall s (List.mem_cons_self s ss))
    · have hstep : bestMatchStep req acc s = acc := by
        unfold bestMatchStep
        rw [if_neg hc]
      rw [hstep, ih acc]
      constructor
      · rintro ⟨h1, h2⟩
        refine ⟨h1, ?_⟩
        intro x hx
        rcases List.mem_cons.mp hx with rfl | hx'
        · exact hc
        · exact h2 x hx'
      · rintro ⟨h1, h2⟩
        exact ⟨h1, fun x hx => h2 x (List.mem_cons_of_mem s hx)⟩

theorem foldl_bestMatchStep_shape (req : List Char) :
    ∀ (skills : List ExtractedSkill) (acc : Option CompetencyMatch × ℚ) (m : CompetencyMatch),
      (skills.foldl (bestMatchStep req) acc).1 = some m →
      acc.1 = some m ∨ ∃ s ∈ skills,
        m = ⟨req, s.skill, calculateSimilarity req s.skill * s.confidence,
          inferProficiencyLevel s.skill, false⟩
        ∧ (0.5 : ℚ) < calculateSimilarity req s.skill := by
  intro skills
  induction skills with
  | nil => intro acc m h; exact Or.inl h
  | cons s ss ih =>
    intro acc m h
    rw [List.foldl_cons] at h
    by_cases hc : acc.2 < calculateSimilarity req s.skill
        ∧ (0.5 : ℚ) < calculateSimilarity req s.skill
    · have hstep : bestMatchStep req acc s
          = (some ⟨req, s.skill, calculateSimilarity req s.skill * s.confidence,
              inferProficiencyLevel s.skill, false⟩, calculateSimilarity req s.skill) := by
        simp only [bestMatchStep]
        rw [if_pos hc]
      rw [hstep] at h
      rcases ih _ m h with h1 | ⟨x, hx, hxe⟩
      · right
        refine ⟨s, List.mem_cons_self s ss, ?_, hc.2⟩
        exact (Option.some_inj.mp h1).symm
      · exact Or.inr ⟨x, List.mem_cons_of_mem s hx, hxe⟩
    · have hstep : bestMatchStep req acc s = acc := by
        unfold bestMatchStep
        rw [if_neg hc]
      rw [hstep] at h
      rcases ih _ m h with h1 | ⟨x, hx, hxe⟩
      · exact Or.inl h1
      · exact Or.inr ⟨x, List.mem_cons_of_mem s hx, hxe⟩

theorem findBestMatch_none_iff (req : List Char) (skills : List ExtractedSkill) :
    (findBestMatch req skills).1 = none ↔
      ∀ s ∈ skills, calculateSimilarity req s.skill ≤ 0.5 := by
  unfold findBestMatch
  rw [foldl_bestMatchStep_none]
  constructor
  · rintro ⟨-, h⟩ s hs
    by_contra hlt
    push_neg at hlt
    exact h s hs ⟨lt_trans (by norm_num) hlt, hlt⟩
  · intro h
    exact ⟨rfl, fun s hs hc => absurd hc.2 (not_lt.mpr (h s hs))⟩

theorem findBestMatch_some_shape (req : List Char) (skills : List ExtractedSkill)
    (m : CompetencyMatch) (h : (findBestMatch req skills).1 = some m) :
    ∃ s ∈ skills,
      m = ⟨req, s.skill, calculateSimilarity req s.skill * s.confidence,
        inferProficiencyLevel s.skill, false⟩
      ∧ (0.5 : ℚ) < calculateSimilarity req s.skill := by
  rcases foldl_bestMatchStep_shape req skills (none, 0) m h with h1 | h2
  · exact absurd h1 (by simp)
  · exact h2

theorem matchOne_competency (skills : List ExtractedSkill) (req : List Char) :
    (matchOne skills req).competency = req := by
  unfold matchOne
  cases hfb : (findBestMatch req skills).1 with
  | none => rfl
  | some m =>
    rcases findBestMatch_some_shape req skills m hfb with ⟨s, _, rfl, -⟩
    rfl

theorem matchOne_cases (skills : List ExtractedSkill) (req : List Char) :
    matchOne skills req = gapEntry req
    ∨ ∃ s ∈ skills, matchOne skills req
        = ⟨req, s.skill, calculateSimilarity req s.skill * s.confidence,
            inferProficiencyLevel s.skill, false⟩
        ∧ (0.5 : ℚ) < calculateSimilarity req s.skill := by
  unfold matchOne
  cases hfb : (findBestMatch req skills).1 with
  | none => exact Or.inl rfl
  | some m =>
    rcases findBestMatch_some_shape req skills m hfb with ⟨s, hs, hm, hgt⟩
    exact Or.inr ⟨s, hs, hm, hgt⟩

theorem matchOne_gap_iff (skills : List ExtractedSkill) (req : List Char) :
    (matchOne skills req).gap = true ↔
      ∀ s ∈ skills, calculateSimilarity req s.skill ≤ 0.5 := by
  unfold matchOne
  cases hfb : (findBestMatch req skills).1 with
  | none =>
    exact iff_of_true rfl ((findBestMatch_none_iff req skills).mp hfb)
  | some m =>
    rcases findBestMatch_some_shape req skills m hfb with ⟨s, hs, hm, hgt⟩
    constructor
    · intro h
      have h' : m.gap = true := h
      rw [hm] at h'
      exact absurd h' (by simp)
    · intro h
      exact absurd hgt (not_lt.mpr (h s hs))

theorem matchOne_gap_shape (skills : List ExtractedSkill) (req : List Char)
    (h : (matchOne skills req).gap = true) :
    matchOne skills req = gapEntry req := by
  rcases matchOne_cases skills req with he | ⟨s, hs, he, hgt⟩
  · exact he
  · rw [he] at h
    exact absurd h (by simp)

theorem mem_matchCompetencies_iff (skills : List ExtractedSkill)
    (reqs : List (List Char)) (m : CompetencyMatch) :
    m ∈ matchCompetencies skills reqs ↔ ∃ req ∈ reqs, matchOne skills req = m := by
  unfold matchCompetencies
  rw [(List.mergeSort_perm _ _).mem_iff, List.mem_map]

theorem matchCompetencies_length (skills : List ExtractedSkill) (reqs : List (List Char)) :
    (matchCompetencies skills reqs).length = reqs.length := by
  unfold matchCompetencies
  rw [List.length_mergeSort, List.length_map]

theorem matchCompetencies_sorted (skills : List ExtractedSkill) (reqs : List (List Char)) :
    List.Pairwise (fun a b : CompetencyMatch => b.confidenceScore ≤ a.confidenceScore)
      (matchCompetencies skills reqs) := by
  unfold matchCompetencies
  have htrans : ∀ a b c : CompetencyMatch, byConfidenceDesc a b = true →
      byConfidenceDesc b c = true → byConfidenceDesc a c = true := by
    intro a b c hab hbc
    unfold byConfidenceDesc at *
    exact decide_eq_true (le_trans (of_decide_eq_true hbc) (of_decide_eq_true hab))
  have htotal : ∀ a b : CompetencyMatch,
      (byConfidenceDesc a b || byConfidenceDesc b a) = true := by
    intro a b
    unfold byConfidenceDesc
    rcases le_total b.confidenceScore a.confidenceScore with h | h <;> simp [h]
  exact (List.sorted_mergeSort htrans htotal (reqs.map (matchOne skills))).imp
    (fun h => of_decide_eq_true h)

theorem mem_skillGaps_iff (skills : List ExtractedSkill) (reqs : List (List Char))
    (c : List Char) :
    c ∈ identifySkillGaps (matchCompetencies skills reqs) reqs ↔
      (c ∈ reqs ∧ ∀ s ∈ skills, calculateSimilarity c s.skill ≤ 0.5) := by
  unfold identifySkillGaps
  rw [List.mem_map]
  constructor
  · rintro ⟨m, hm, rfl⟩
    rw [List.mem_filter] at hm
    rcases (mem_matchCompetencies_iff skills reqs m).mp hm.1 with ⟨req, hreq, rfl⟩
    rw [matchOne_competency]
    exact ⟨hreq, (matchOne_gap_iff skills req).mp hm.2⟩
  · rintro ⟨hc, hall⟩
    refine ⟨matchOne skills c, ?_, matchOne_competency skills c⟩
    rw [List.mem_filter]
    exact ⟨(mem_matchCompetencies_iff skills reqs _).mpr ⟨c, hc, rfl⟩,
      (matchOne_gap_iff skills c).mpr hall⟩

theorem scoreCompetencies_matches (sk : List ExtractedSkill) (rq : List (List Char))
    (tx : List Char) :
    (scoreCompetencies sk rq tx).competencyMatches = matchCompetencies sk rq := rfl

theorem scoreCompetencies_gaps (sk : List ExtractedSkill) (rq : List (List Char))
    (tx : List Char) :
    (scoreCompetencies sk rq tx).skillGaps
      = identifySkillGaps (matchCompetencies sk rq) rq := rfl

theorem scoreCompetencies_cultural (sk : List ExtractedSkill) (rq : List (List Char))
    (tx : List Char) :
    (scoreCompetencies sk rq tx).culturalFitIndex = assessCulturalFit tx sk := rfl

theorem scoreCompetencies_overall (sk : List ExtractedSkill) (rq : List (List Char))
    (tx : List Char) :
    (scoreCompetencies sk rq tx).overallFitScore
      = calculateOverallFitScore (matchCompetencies sk rq) rq.length := rfl

theorem scoreCompetencies_ranking (sk : List ExtractedSkill) (rq : List (List Char))
    (tx : List Char) :
    (scoreCompetencies sk rq tx).rankingScore
      = calculateRankingScore (calculateOverallFitScore (matchCompetencies sk rq) rq.length)
          (assessCulturalFit tx sk)
          (identifySkillGaps (matchCompetencies sk rq) rq).length := rfl

/-- Claim C1: for every list of extracted skills, every list of required
competencies, and every resume text, `scoreCompetencies` returns exactly one
`CompetencyMatch` per required competency (`|matches| = |requiredCompetencies|`),
the matches list is sorted by `confidenceScore` descending, and a competency
appears in the gaps list exactly when no extracted skill scores similarity
strictly greater than 0.5 against it; its match entry then has `gap = true`,
empty matched skill and confidence 0. -/
theorem claimC1_matches_complete_sorted_gaps (extractedSkills : List ExtractedSkill)
    (requiredCompetencies : List (List Char)) (resumeText : List Char) :
    (scoreCompetencies extractedSkills requiredCompetencies resumeText).competencyMatches.length
        = requiredCompetencies.length
    ∧ List.Pairwise (fun a b : CompetencyMatch => b.confidenceScore ≤ a.confidenceScore)
        (scoreCompetencies extractedSkills requiredCompetencies resumeText).competencyMatches
    ∧ (∀ c, c ∈ (scoreCompetencies extractedSkills requiredCompetencies resumeText).skillGaps
        ↔ (c ∈ requiredCompetencies
          ∧ ∀ s ∈ extractedSkills, calculateSimilarity c s.skill ≤ 0.5))
    ∧ (∀ m ∈ (scoreCompetencies extractedSkills requiredCompetencies resumeText).competencyMatches,
        (m.gap = true ↔ ∀ s ∈ extractedSkills, calculateSimilarity m.competency s.skill ≤ 0.5)
        ∧ (m.gap = true → m.extractedSkill = [] ∧ m.confidenceScore = 0)) := by
  rw [scoreCompetencies_matches, scoreCompetencies_gaps]
  refine ⟨matchCompetencies_length _ _, matchCompetencies_sorted _ _, ?_, ?_⟩
  · intro c
    exact mem_skillGaps_iff extractedSkills requiredCompetencies c
  · intro m hm
    rcases (mem_matchCompetencies_iff _ _ m).mp hm with ⟨req, hreq, rfl⟩
    constructor
    · rw [matchOne_competency]
      exact matchOne_gap_iff extractedSkills req
    · intro hgap
      rw [matchOne_gap_shape extractedSkills req hgap]
      exact ⟨rfl, rfl⟩

/-! ### Score bounds -/

theorem jsRound_bounds (x : ℚ) (h0 : 0 ≤ x) (h1 : x ≤ 100) :
    0 ≤ jsRound x ∧ jsRound x ≤ 100 := by
  unfold jsRound
  constructor
  · apply Int.le_floor.mpr
    push_cast
    linarith
  · have hlt : ⌊x + 1/2⌋ < 101 := by
      apply Int.floor_lt.mpr
      push_cast
      linarith
    omega

theorem assessCulturalFit_bounds (text : List Char) (skills : List ExtractedSkill) :
    50 ≤ assessCulturalFit text skills ∧ assessCulturalFit text skills ≤ 98 := by
  simp only [assessCulturalFit]
  have h5 : min ((skills.filter (fun s => decide (s.category = "soft".data))).length * 2) 15
      ≤ 15 := Nat.min_le_right _ _
  split_ifs <;> (rw [min_eq_right (by omega)]; omega)

theorem foldl_add_conf (l : List CompetencyMatch) :
    ∀ a : ℚ, l.foldl (fun sum m => sum + m.confidenceScore) a
      = a + (l.map (fun m => m.confidenceScore)).sum := by
  induction l with
  | nil => intro a; simp
  | cons m ms ih =>
    intro a
    rw [List.foldl_cons, ih, List.map_cons, List.sum_cons]
    ring

theorem sum_conf_le (l : List CompetencyMatch)
    (h : ∀ m ∈ l, m.confidenceScore ≤ 1) :
    (l.map (fun m => m.confidenceScore)).sum ≤ (l.length : ℚ) := by
  induction l with
  | nil => simp
  | cons m ms ih =>
    rw [List.map_cons, List.sum_cons, List.length_cons]
    have h1 : m.confidenceScore ≤ 1 := h m (List.mem_cons_self m ms)
    have h2 := ih (fun x hx => h x (List.mem_cons_of_mem m hx))
    push_cast
    linarith

theorem sum_conf_nonneg (l : List CompetencyMatch)
    (h : ∀ m ∈ l, 0 ≤ m.confidenceScore) :
    0 ≤ (l.map (fun m => m.confidenceScore)).sum := by
  induction l with
  | nil => simp
  | cons m ms ih =>
    rw [List.map_cons, List.sum_cons]
    have h1 : 0 ≤ m.confidenceScore := h m (List.mem_cons_self m ms)
    have h2 := ih (fun x hx => h x (List.mem_cons_of_mem m hx))
    linarith

theorem matchOne_conf_bounds (skills : List ExtractedSkill) (req : List Char)
    (h : ∀ s ∈ skills, 0 ≤ s.confidence ∧ s.confidence ≤ 1) :
    0 ≤ (matchOne skills req).confidenceScore
      ∧ (matchOne skills req).confidenceScore ≤ 1 := by
  rcases matchOne_cases skills req with he | ⟨s, hs, he, hgt⟩
  · rw [he]
    exact ⟨by norm_num [gapEntry], by norm_num [gapEntry]⟩
  · rw [he]
    dsimp only
    have hs0 := calculateSimilarity_nonneg req s.skill
    have hs1 := calculateSimilarity_le_one req s.skill
    have hc := h s hs
    constructor
    · exact mul_nonneg hs0 hc.1
    · nlinarith [hc.1, hc.2]

theorem matchCompetencies_conf_bounds (skills : List ExtractedSkill)
    (reqs : List (List Char))
    (h : ∀ s ∈ skills, 0 ≤ s.confidence ∧ s.confidence ≤ 1) :
    ∀ m ∈ matchCompetencies skills reqs,
      0 ≤ m.confidenceScore ∧ m.confidenceScore ≤ 1 := by
  intro m hm
  rcases (mem_matchCompetencies_iff skills reqs m).mp hm with ⟨req, _, rfl⟩
  exact matchOne_conf_bounds skills req h

theorem calculateOverallFitScore_bounds (ms : List CompetencyMatch) (n : ℕ)
    (hlen : ms.length = n)
    (hconf : ∀ m ∈ ms, 0 ≤ m.confidenceScore ∧ m.confidenceScore ≤ 1) :
    0 ≤ calculateOverallFitScore ms n ∧ calculateOverallFitScore ms n ≤ 100 := by
  unfold calculateOverallFitScore
  split_ifs with h0
  · norm_num
  · have hn : (0 : ℚ) < (n : ℚ) := by exact_mod_cast Nat.pos_of_ne_zero h0
    have hcntn : (ms.filter (fun m => !m.gap)).length ≤ n := by
      rw [← hlen]
      exact List.length_filter_le _ _
    have hcnt : ((ms.filter (fun m => !m.gap)).length : ℚ) ≤ (n : ℚ) := by
      exact_mod_cast hcntn
    have hcnt0 : (0 : ℚ) ≤ ((ms.filter (fun m => !m.gap)).length : ℚ) :=
      Nat.cast_nonneg _
    rw [foldl_add_conf, zero_add]
    have hsle : (ms.map (fun m => m.confidenceScore)).sum ≤ (n : ℚ) := by
      rw [← hlen]
      exact_mod_cast sum_conf_le ms (fun m hm => (hconf m hm).2)
    have hs0 : 0 ≤ (ms.map (fun m => m.confidenceScore)).sum :=
      sum_conf_nonneg ms (fun m hm => (hconf m hm).1)
    have ha1 : ((ms.filter (fun m => !m.gap)).length : ℚ) / (n : ℚ) ≤ 1 :=
      (div_le_one hn).mpr hcnt
    have ha0 : 0 ≤ ((ms.filter (fun m => !m.gap)).length : ℚ) / (n : ℚ) :=
      div_nonneg hcnt0 (le_of_lt hn)
    have hb1 : (ms.map (fun m => m.confidenceScore)).sum / (n : ℚ) ≤ 1 :=
      (div_le_one hn).mpr hsle
    have hb0 : 0 ≤ (ms.map (fun m => m.confidenceScore)).sum / (n : ℚ) :=
      div_nonneg hs0 (le_of_lt hn)
    exact jsRound_bounds _ (by nlinarith) (by nlinarith)

theorem calculateRankingScore_bounds (o : ℤ) (c g : ℕ)
    (ho0 : 0 ≤ o) (ho1 : o ≤ 100) (hc : c ≤ 100) :
    0 ≤ calculateRankingScore o c g ∧ calculateRankingScore o c g ≤ 100 := by
  unfold calculateRankingScore
  have hoq0 : (0 : ℚ) ≤ (o : ℚ) := by exact_mod_cast ho0
  have hoq1 : (o : ℚ) ≤ 100 := by exact_mod_cast ho1
  have hcq : (c : ℚ) ≤ 100 := by exact_mod_cast hc
  have hcq0 : (0 : ℚ) ≤ (c : ℚ) := Nat.cast_nonneg c
  have hg0 : (0 : ℚ) ≤ max 0 ((1 - (g : ℚ) * 0.15) * 100) := le_max_left 0 _
  have hg1 : max 0 ((1 - (g : ℚ) * 0.15) * 100) ≤ 100 := by
    apply max_le (by norm_num)
    have hgz : (0 : ℚ) ≤ (g : ℚ) := Nat.cast_nonneg g
    nlinarith
  exact jsRound_bounds _ (by nlinarith) (by nlinarith)

/-- Claim C2: for every input to `scoreCompetencies` (well-formed skill
confidences in `[0,1]` as the data model requires), including empty resume
text and an empty required-competency list, the returned `overallFitScore`,
`culturalFitIndex` and `rankingScore` all lie in `[0, 100]`. -/
theorem claimC2_score_bounds (extractedSkills : List ExtractedSkill)
    (requiredCompetencies : List (List Char)) (resumeText : List Char)
    (hconf : ∀ s ∈ extractedSkills, 0 ≤ s.confidence ∧ s.confidence ≤ 1) :
    (0 ≤ (scoreCompetencies extractedSkills requiredCompetencies resumeText).overallFitScore
      ∧ (scoreCompetencies extractedSkills requiredCompetencies resumeText).overallFitScore ≤ 100)
    ∧ (scoreCompetencies extractedSkills requiredCompetencies resumeText).culturalFitIndex ≤ 100
    ∧ (0 ≤ (scoreCompetencies extractedSkills requiredCompetencies resumeText).rankingScore
      ∧ (scoreCompetencies extractedSkills requiredCompetencies resumeText).rankingScore ≤ 100) := by
  rw [scoreCompetencies_overall, scoreCompetencies_cultural, scoreCompetencies_ranking]
  have hover := calculateOverallFitScore_bounds (matchCompetencies extractedSkills requiredCompetencies)
    requiredCompetencies.length (matchCompetencies_length _ _)
    (matchCompetencies_conf_bounds _ _ hconf)
  have hcult := assessCulturalFit_bounds resumeText extractedSkills
  refine ⟨hover, le_trans hcult.2 (by norm_num), ?_⟩
  exact calculateRankingScore_bounds _ _ _ hover.1 hover.2 (le_trans hcult.2 (by norm_num))

/-- Witness for claim C2 at a concrete input: the empty skill list, empty
competency list and empty text. -/
theorem claimC2_score_bounds_witness :
    (∀ s ∈ ([] : List ExtractedSkill), 0 ≤ s.confidence ∧ s.confidence ≤ 1)
    ∧ ((0 ≤ (scoreCompetencies [] [] []).overallFitScore
        ∧ (scoreCompetencies [] [] []).overallFitScore ≤ 100)
      ∧ (scoreCompetencies [] [] []).culturalFitIndex ≤ 100
      ∧ (0 ≤ (scoreCompetencies [] [] []).rankingScore
        ∧ (scoreCompetencies [] [] []).rankingScore ≤ 100)) :=
  ⟨by simp, claimC2_score_bounds [] [] [] (by simp)⟩

/-- Claim C9: for every resume text and extracted-skill list, the
`culturalFitIndex` computed by `scoreCompetencies` lies in `[50, 98]`: the
score starts at 50 and only bonuses are added, the bonuses sum to at most
`10 + 10 + 5 + 8 + 15 = 48`, so the index never falls below 50 and the
documented cap of 100 is never reached. -/
theorem claimC9_cultural_range (extractedSkills : List ExtractedSkill)
    (requiredCompetencies : List (List Char)) (resumeText : List Char) :
    50 ≤ (scoreCompetencies extractedSkills requiredCompetencies resumeText).culturalFitIndex
    ∧ (scoreCompetencies extractedSkills requiredCompetencies resumeText).culturalFitIndex
        ≤ 98 := by
  rw [scoreCompetencies_cultural]
  exact assessCulturalFit_bounds resumeText extractedSkills

/-- Claim C4: for all strings `a` and `b`, `similarity(a,b)` follows the
three priority rules — 1.0 on exact case-insensitive whitespace-trimmed
equality, 0.85 when one normalized string contains the other, otherwise
`1 − editDistance / length(longer normalized string)` with the classic
Levenshtein edit distance — and the returned value always lies in `[0,1]`. -/
theorem claimC4_similarity_rules_and_bounds (a b : List Char) :
    calculateSimilarity a b = similaritySpec a b
    ∧ 0 ≤ calculateSimilarity a b
    ∧ calculateSimilarity a b ≤ 1 :=
  ⟨calculateSimilarity_eq_spec a b, calculateSimilarity_nonneg a b,
    calculateSimilarity_le_one a b⟩

/-- Claim C8: for all strings `a` and `b`,
`similarity(a,b) = similarity(b,a)`: the edit-distance branch is symmetric,
and the exact-match and containment branches are order-independent. -/
theorem claimC8_similarity_symmetric (a b : List Char) :
    calculateSimilarity a b = calculateSimilarity b a :=
  calculateSimilarity_symm a b

/-! ### Resume parser: skill extraction (`resumeParser.ts`)

`extractSkills` builds, for every keyword `kw`, the regular expression
`new RegExp("\\b" + kw.toLowerCase() + "\\b", "gi")` and tests it against
the lowercased resume text.  The pattern construction is embedded by
`compileKeyword`: `.` compiles to a wildcard, `+` is a one-or-more
quantifier that must follow a quantifiable atom, and every other character
occurring in the vocabularies is literal.  For the keyword `"C++"` the
second `+` follows a quantifier, so the construction fails — exactly the
JavaScript `SyntaxError` ("nothing to repeat") that `new RegExp("\\bc++\\b")`
raises — and `extractSkills` therefore throws on every input. -/

/-- Regex token for the compiled word patterns. -/
inductive RTok where
  | exact (c : Char)
  | anyChar
  | plus (t : RTok)
deriving DecidableEq

/-- Pattern compilation for one keyword (see section comment). `none` models
a `SyntaxError` thrown by `new RegExp`. -/
def compileGo : List Char → List RTok → Option (List RTok)
  | [], acc => some acc.reverse
  | c :: rest, acc =>
    if c = '.' then compileGo rest (.anyChar :: acc)
    else if c = '+' then
      match acc with
      | .plus _ :: _ => none
      | t :: acc' => compileGo rest (.plus t :: acc')
      | [] => none
    else compileGo rest (.exact c :: acc)

/-- Compiles the body of the word-boundary pattern built from a keyword. -/
def compileKeyword (kw : List Char) : Option (List RTok) := compileGo kw []

/-- Single-character token match (used to expand `plus`). -/
def tokMatches1 : RTok → Char → Bool
  | .exact c, x => x = c
  | .anyChar, _ => true
  | .plus _, _ => false

/-- All lengths of matches of a token sequence against a prefix of `s`
(backtracking semantics; `plus` is one-or-more). -/
def matchEnds : List RTok → List Char → List Nat
  | [], _ => [0]
  | _ :: _, [] => []
  | .exact c :: ts, x :: s => if x = c then (matchEnds ts s).map (· + 1) else []
  | .anyChar :: ts, _ :: s => (matchEnds ts s).map (· + 1)
  | .plus t :: ts, x :: s =>
    if tokMatches1 t x then
      ((matchEnds ts s).map (· + 1)) ++ ((matchEnds (.plus t :: ts) s).map (· + 1))
    else []

/-- The regex word-character class `\w = [A-Za-z0-9_]`. -/
def isWordChar (c : Char) : Bool := c.isLower || c.isUpper || c.isDigit || c = '_'

/-- The regex word-boundary assertion `\b` at position `i` of `s`. -/
def boundaryAt (s : List Char) (i : Nat) : Bool :=
  (if i = 0 then false else isWordChar (s.getD (i-1) ' '))
    != (if i < s.length then isWordChar (s.getD i ' ') else false)

/-- Embeds `regex.test(text)` for a pattern `\b …tokens… \b`: some position
admits a match with word boundaries on both sides. -/
def testWordPattern (toks : List RTok) (text : List Char) : Bool :=
  (List.range (text.length + 1)).any fun i =>
    boundaryAt text i && (matchEnds toks (text.drop i)).any fun e => boundaryAt text (i + e)

/-- The `TECHNICAL_KEYWORDS` vocabulary of `resumeParser.ts`. -/
def TECHNICAL_KEYWORDS : List (List Char) :=
  ["React".data, "Node.js".data, "Python".data, "JavaScript".data, "TypeScript".data,
   "Java".data, "C++".data, "SQL".data, "MongoDB".data, "AWS".data, "Azure".data,
   "Docker".data, "Kubernetes".data, "Git".data, "REST API".data, "GraphQL".data,
   "Machine Learning".data, "Data Science".data, "TensorFlow".data, "PyTorch".data,
   "BERT".data, "NLP".data, "Deep Learning".data, "Vue.js".data, "Angular".data,
   "Express".data, "Django".data, "Flask".data, "Spring Boot".data, "PostgreSQL".data,
   "Firebase".data, "Supabase".data, "CI/CD".data, "DevOps".data, "Linux".data,
   "Agile".data, "Scrum".data, "JIRA".data, "Figma".data, "UI/UX".data]

/-- The `SOFT_KEYWORDS` vocabulary of `resumeParser.ts`. -/
def SOFT_KEYWORDS : List (List Char) :=
  ["Leadership".data, "Communication".data, "Problem Solving".data, "Teamwork".data,
   "Adaptability".data, "Critical Thinking".data, "Time Management".data,
   "Creativity".data, "Analytical".data, "Strategic".data, "Negotiation".data,
   "Mentoring".data, "Project Management".data, "Decision Making".data,
   "Collaboration".data, "Attention to Detail".data, "Reliability".data,
   "Work Ethic".data, "Flexibility".data, "Innovation".data]

/-- One keyword loop of `extractSkills` (`forEach` with `skills.push`):
builds the regex for each keyword (which may throw) and appends a skill
record on a test hit. -/
def collectSkills : List (List Char) → ℚ → List Char → List Char → List ExtractedSkill →
    Except Unit (List ExtractedSkill)
  | [], _, _, _, acc => .ok acc
  | kw :: rest, conf, cat, processed, acc =>
    match compileKeyword (jsToLower kw) with
    | none => .error ()
    | some toks =>
      collectSkills rest conf cat processed
        (acc ++ if testWordPattern toks processed then [⟨kw, conf, cat⟩] else [])

/-- The dedup key: `s.skill.toLowerCase()`. -/
def skillKey (s : ExtractedSkill) : List Char := jsToLower s.skill

/-- One `Map.prototype.set` step: an existing key keeps its position but its
value is overwritten; a new key is appended. -/
def mapInsert (m : List (List Char × ExtractedSkill)) (k : List Char) (v : ExtractedSkill) :
    List (List Char × ExtractedSkill) :=
  if m.any (fun p => decide (p.1 = k)) then
    m.map (fun p => if p.1 = k then (k, v) else p)
  else m ++ [(k, v)]

/-- Embeds `new Map(skills.map(s => [s.skill.toLowerCase(), s]))`. -/
def jsMapOfList (l : List ExtractedSkill) : List (List Char × ExtractedSkill) :=
  l.foldl (fun m s => mapInsert m (skillKey s) s) []

/-- Embeds `Array.from(new Map(…).values())`: dedup by lowercased label. -/
def dedupeByLabel (l : List ExtractedSkill) : List ExtractedSkill :=
  (jsMapOfList l).map (fun p => p.2)

/-- The skill sort comparator `(a, b) => b.confidence - a.confidence`. -/
def byConfDesc (a b : ExtractedSkill) : Bool := decide (b.confidence ≤ a.confidence)

/-- The dedup / sort-descending / `slice(0, 30)` tail of `extractSkills`. -/
def postProcessSkills (skills : List ExtractedSkill) : List ExtractedSkill :=
  ((dedupeByLabel skills).mergeSort byConfDesc).take 30

/-- Embeds `extractSkills`: technical keywords at confidence 0.9, soft
keywords at confidence 0.75, then dedup, sort and truncate. -/
def extractSkills (resumeText : List Char) : Except Unit (List ExtractedSkill) := do
  let processed := jsToLower resumeText
  let tech ← collectSkills TECHNICAL_KEYWORDS 0.9 "technical".data processed []
  let all ← collectSkills SOFT_KEYWORDS 0.75 "soft".data processed tech
  pure (postProcessSkills all)

theorem extractSkills_error (resumeText : List Char) :
    extractSkills resumeText = .error () := rfl

/-! ### Dedup semantics of the skill map -/

theorem jsMapOfList_append (l : List ExtractedSkill) (s : ExtractedSkill) :
    jsMapOfList (l ++ [s]) = mapInsert (jsMapOfList l) (skillKey s) s := by
  unfold jsMapOfList
  rw [List.foldl_append]
  rfl

theorem jsMapOfList_entries (l : List ExtractedSkill) :
    ∀ p ∈ jsMapOfList l, p.1 = skillKey p.2 := by
  induction l using List.reverseRecOn with
  | nil =>
    intro p hp
    simp [jsMapOfList] at hp
  | append_singleton l s ih =>
    intro p hp
    rw [jsMapOfList_append] at hp
    unfold mapInsert at hp
    split at hp
    · rcases List.mem_map.mp hp with ⟨q, hq, rfl⟩
      by_cases hqk : q.1 = skillKey s
      · rw [if_pos hqk]
      · rw [if_neg hqk]
        exact ih q hq
    · rcases List.mem_append.mp hp with h | h
      · exact ih p h
      · rw [List.mem_singleton] at h
        rw [h]

theorem filter_jsMapOfList (k : List Char) (l : List ExtractedSkill) :
    (jsMapOfList l).filter (fun p => decide (p.1 = k))
      = (((l.filter (fun s => decide (skillKey s = k))).getLast?).map
          (fun s => ((k, s) : List Char × ExtractedSkill))).toList := by
  induction l using List.reverseRecOn with
  | nil => simp [jsMapOfList]
  | append_singleton l s ih =>
    rw [jsMapOfList_append]
    have hfilter_app : (l ++ [s]).filter (fun s' => decide (skillKey s' = k))
        = l.filter (fun s' => decide (skillKey s' = k))
          ++ (if skillKey s = k then [s] else []) := by
      rw [List.filter_append]
      congr 1
      by_cases hk : skillKey s = k
      · simp [hk]
      · simp [hk]
    by_cases hk : skillKey s = k
    · subst hk
      have hlast : ((l.filter (fun s' => decide (skillKey s' = skillKey s)) ++ [s]).getLast?)
          = some s := List.getLast?_concat _
      rw [hfilter_app, if_pos rfl, hlast]
      unfold mapInsert
      split
      · next hmem =>
        rw [List.filter_map]
        have hcong : (jsMapOfList l).filter
            ((fun p => decide (p.1 = skillKey s))
              ∘ (fun p => if p.1 = skillKey s then ((skillKey s, s) : List Char × ExtractedSkill) else p))
            = (jsMapOfList l).filter (fun p => decide (p.1 = skillKey s)) := by
          apply List.filter_congr
          intro q _
          simp only [Function.comp_apply]
          by_cases hqk : q.1 = skillKey s
          · rw [if_pos hqk, hqk]
          · rw [if_neg hqk]
        rw [hcong]
        rcases List.any_eq_true.mp hmem with ⟨p, hp, hpk⟩
        have hmem2 : p ∈ (jsMapOfList l).filter (fun p => decide (p.1 = skillKey s)) :=
          List.mem_filter.mpr ⟨hp, hpk⟩
        rw [ih] at hmem2
        rw [ih]
        cases ho : (l.filter (fun s' => decide (skillKey s' = skillKey s))).getLast? with
        | none =>
          exfalso
          rw [ho, Option.map_none', Option.toList_none] at hmem2
          exact absurd hmem2 (List.not_mem_nil p)
        | some y =>
          simp only [Option.map_some', Option.toList_some, List.map_cons, List.map_nil]
          simp
      · next hmem =>
        have hknotin : (l.filter (fun s' => decide (skillKey s' = skillKey s))).getLast?
            = none := by
          by_contra hne
          rcases Option.ne_none_iff_exists'.mp hne with ⟨y, hy⟩
          apply hmem
          have hyl : (skillKey s, y) ∈ (jsMapOfList l).filter
              (fun p => decide (p.1 = skillKey s)) := by
            rw [ih, hy]
            simp
          exact List.any_eq_true.mpr ⟨(skillKey s, y), (List.mem_filter.mp hyl).1, by simp⟩
        rw [List.filter_append, ih, hknotin, Option.map_none', Option.toList_none,
          List.nil_append]
        simp
    · have hlast : ((l.filter (fun s' => decide (skillKey s' = k))
          ++ (if skillKey s = k then [s] else [])).getLast?)
          = (l.filter (fun s' => decide (skillKey s' = k))).getLast? := by
        rw [if_neg hk, List.append_nil]
      rw [hfilter_app, hlast]
      unfold mapInsert
      split
      · rw [List.filter_map]
        have hcong : (jsMapOfList l).filter
            ((fun p => decide (p.1 = k))
              ∘ (fun p => if p.1 = skillKey s then ((skillKey s, s) : List Char × ExtractedSkill) else p))
            = (jsMapOfList l).filter (fun p => decide (p.1 = k)) := by
          apply List.filter_congr
          intro q _
          simp only [Function.comp_apply]
          by_cases hqk : q.1 = skillKey s
          · rw [if_pos hqk, hqk]
          · rw [if_neg hqk]
        rw [hcong, ih]
        cases hy : (l.filter (fun s' => decide (skillKey s' = k))).getLast? with
        | none => simp
        | some y =>
          simp only [Option.map_some', Option.toList_some, List.map_singleton]
          have hky : ((k, y) : List Char × ExtractedSkill).1 ≠ skillKey s := fun hh => hk hh.symm
          rw [if_neg hky]
      · rw [List.filter_append, ih]
        have : ([((skillKey s, s) : List Char × ExtractedSkill)].filter
            (fun p => decide (p.1 = k))) = [] := by
          simp [hk]
        rw [this, List.append_nil]

theorem dedupeByLabel_keeps_last (l : List ExtractedSkill) (k : List Char) :
    (dedupeByLabel l).filter (fun s => decide (skillKey s = k))
      = ((l.filter (fun s => decide (skillKey s = k))).getLast?).toList := by
  unfold dedupeByLabel
  rw [List.filter_map]
  have hcong : (jsMapOfList l).filter
      ((fun s => decide (skillKey s = k)) ∘ (fun p => p.2))
      = (jsMapOfList l).filter (fun p => decide (p.1 = k)) := by
    apply List.filter_congr
    intro p hp
    have he := jsMapOfList_entries l p hp
    simp [Function.comp, he]
  rw [hcong, filter_jsMapOfList k l]
  cases (l.filter (fun s => decide (skillKey s = k))).getLast? <;> simp

/-- First-seen order of the lowercased labels: reference description of the
key order kept by the JavaScript `Map`. -/
def firstSeenKeys (l : List ExtractedSkill) : List (List Char) :=
  l.foldl (fun ks s => if skillKey s ∈ ks then ks else ks ++ [skillKey s]) []

theorem firstSeenKeys_append (l : List ExtractedSkill) (s : ExtractedSkill) :
    firstSeenKeys (l ++ [s])
      = if skillKey s ∈ firstSeenKeys l then firstSeenKeys l
        else firstSeenKeys l ++ [skillKey s] := by
  unfold firstSeenKeys
  rw [List.foldl_append]
  rfl

theorem jsMapOfList_keys (l : List ExtractedSkill) :
    (jsMapOfList l).map (fun p => p.1) = firstSeenKeys l := by
  induction l using List.reverseRecOn with
  | nil => simp [jsMapOfList, firstSeenKeys]
  | append_singleton l s ih =>
    rw [jsMapOfList_append, firstSeenKeys_append, ← ih]
    unfold mapInsert
    by_cases hmem : (jsMapOfList l).any (fun p => decide (p.1 = skillKey s)) = true
    · have hin : skillKey s ∈ (jsMapOfList l).map (fun p => p.1) := by
        rcases List.any_eq_true.mp hmem with ⟨p, hp, hpk⟩
        exact List.mem_map.mpr ⟨p, hp, of_decide_eq_true hpk⟩
      rw [if_pos hmem, if_pos hin, List.map_map]
      apply List.map_congr_left
      intro p _
      by_cases hpk : p.1 = skillKey s
      · simp [hpk]
      · simp [hpk]
    · have hnotin : skillKey s ∉ (jsMapOfList l).map (fun p => p.1) := by
        intro hin
        rcases List.mem_map.mp hin with ⟨p, hp, hpk⟩
        exact hmem (List.any_eq_true.mpr ⟨p, hp, decide_eq_true hpk⟩)
      rw [if_neg hmem, if_neg hnotin, List.map_append, List.map_singleton]

theorem dedupeByLabel_keys (l : List ExtractedSkill) :
    (dedupeByLabel l).map skillKey = firstSeenKeys l := by
  unfold dedupeByLabel
  rw [List.map_map, ← jsMapOfList_keys l]
  apply List.map_congr_left
  intro p hp
  exact (jsMapOfList_entries l p hp).symm

theorem postProcessSkills_sorted (l : List ExtractedSkill) :
    List.Pairwise (fun a b : ExtractedSkill => b.confidence ≤ a.confidence)
      (postProcessSkills l) := by
  unfold postProcessSkills
  apply List.Pairwise.sublist (List.take_sublist _ _)
  have htrans : ∀ a b c : ExtractedSkill, byConfDesc a b = true →
      byConfDesc b c = true → byConfDesc a c = true := by
    intro a b c hab hbc
    unfold byConfDesc at *
    exact decide_eq_true (le_trans (of_decide_eq_true hbc) (of_decide_eq_true hab))
  have htotal : ∀ a b : ExtractedSkill, (byConfDesc a b || byConfDesc b a) = true := by
    intro a b
    unfold byConfDesc
    rcases le_total b.confidence a.confidence with h | h <;> simp [h]
  exact (List.sorted_mergeSort htrans htotal (dedupeByLabel l)).imp
    (fun h => of_decide_eq_true h)

theorem postProcessSkills_length_le (l : List ExtractedSkill) :
    (postProcessSkills l).length ≤ 30 := by
  unfold postProcessSkills
  rw [List.length_take]
  exact min_le_left _ _

/-- Claim C7 counterexample: two keyword hits sharing the case-insensitive
label "agile" are merged to the entry encountered last (the soft-skill one at
confidence 0.75), not to the first-seen entry, refuting the claimed
first-seen tie-break. -/
theorem claimC7_counterexample :
    dedupeByLabel
        [⟨"Agile".data, 0.9, "technical".data⟩, ⟨"agile".data, 0.75, "soft".data⟩]
      = [⟨"agile".data, 0.75, "soft".data⟩]
    ∧ ([⟨"agile".data, 0.75, "soft".data⟩] : List ExtractedSkill)
      ≠ [⟨"Agile".data, 0.9, "technical".data⟩] := by
  constructor
  · rfl
  · intro h
    have hskill := congrArg (fun l : List ExtractedSkill => (l.headD ⟨[], 0, []⟩).skill) h
    exact absurd hskill (by decide)

/-- Claim C7 (amended): the merge of skill extraction keeps, for each
case-insensitive label, the entry encountered *last* (at the position where
the label was first seen), the post-processed list is sorted by confidence
descending and truncated to at most 30 entries; moreover `extractSkills`
itself throws on every input, because the pattern built from the keyword
"C++" is not a valid regular expression. -/
theorem claimC7_amended :
    (∀ text, extractSkills text = .error ())
    ∧ (∀ (l : List ExtractedSkill) (k : List Char),
        (dedupeByLabel l).filter (fun s => decide (skillKey s = k))
          = ((l.filter (fun s => decide (skillKey s = k))).getLast?).toList)
    ∧ (∀ l : List ExtractedSkill, (dedupeByLabel l).map skillKey = firstSeenKeys l)
    ∧ (∀ l : List ExtractedSkill,
        List.Pairwise (fun a b : ExtractedSkill => b.confidence ≤ a.confidence)
          (postProcessSkills l)
        ∧ (postProcessSkills l).length ≤ 30) :=
  ⟨extractSkills_error, dedupeByLabel_keeps_last, dedupeByLabel_keys,
    fun l => ⟨postProcessSkills_sorted l, postProcessSkills_length_le l⟩⟩

/-! ### Empty required-competency labels (claim C10) -/

theorem sim_of_empty_req (req sk : List Char) (hreq : normalized req = [])
    (hsk : normalized sk ≠ []) : calculateSimilarity req sk = 0.85 := by
  unfold calculateSimilarity
  have h1 : ¬ (normalized req = normalized sk) := by
    rw [hreq]
    exact fun h => hsk h.symm
  have h2 : (containsSub (normalized req) (normalized sk)
      || containsSub (normalized sk) (normalized req)) = true := by
    rw [hreq, containsSub_nil, Bool.or_true]
  rw [if_neg h1, if_pos h2]

theorem sim_both_empty (req sk : List Char) (hreq : normalized req = [])
    (hsk : normalized sk = []) : calculateSimilarity req sk = 1 := by
  unfold calculateSimilarity
  rw [if_pos (hreq.trans hsk.symm)]

theorem sim_of_empty_req_gt_half (req sk : List Char)
    (hreq : normalized req = []) : (0.5 : ℚ) < calculateSimilarity req sk := by
  by_cases hsk : normalized sk = []
  · rw [sim_both_empty req sk hreq hsk]
    norm_num
  · rw [sim_of_empty_req req sk hreq hsk]
    norm_num

theorem foldl_const85_keep (req : List Char) :
    ∀ (rest : List ExtractedSkill) (m : CompetencyMatch),
      (∀ s ∈ rest, calculateSimilarity req s.skill = 0.85) →
      rest.foldl (bestMatchStep req) (some m, 0.85) = (some m, 0.85) := by
  intro rest
  induction rest with
  | nil => intro m _; rfl
  | cons s ss ih =>
    intro m hall
    rw [List.foldl_cons]
    have hc : ¬ ((some m, (0.85 : ℚ)).2 < calculateSimilarity req s.skill
        ∧ (0.5 : ℚ) < calculateSimilarity req s.skill) := by
      rw [hall s (List.mem_cons_self s ss)]
      intro hcc
      have hlt : (0.85 : ℚ) < 0.85 := hcc.1
      exact absurd hlt (lt_irrefl _)
    have hstep : bestMatchStep req (some m, (0.85 : ℚ)) s = (some m, 0.85) := by
      simp only [bestMatchStep]
      rw [if_neg hc]
    rw [hstep]
    exact ih m (fun x hx => hall x (List.mem_cons_of_mem s hx))

theorem findBestMatch_all85 (req : List Char) (s0 : ExtractedSkill)
    (rest : List ExtractedSkill)
    (hall : ∀ s ∈ (s0 :: rest), calculateSimilarity req s.skill = 0.85) :
    findBestMatch req (s0 :: rest)
      = (some ⟨req, s0.skill, (0.85 : ℚ) * s0.confidence,
          inferProficiencyLevel s0.skill, false⟩, 0.85) := by
  unfold findBestMatch
  rw [List.foldl_cons]
  have h0 : bestMatchStep req (none, 0) s0
      = (some ⟨req, s0.skill, (0.85 : ℚ) * s0.confidence,
          inferProficiencyLevel s0.skill, false⟩, 0.85) := by
    have hs0 : calculateSimilarity req s0.skill = 0.85 :=
      hall s0 (List.mem_cons_self s0 rest)
    simp only [bestMatchStep, hs0]
    rw [if_pos ⟨show (0 : ℚ) < 0.85 by norm_num, show (0.5 : ℚ) < 0.85 by norm_num⟩]
  rw [h0]
  exact foldl_const85_keep req rest _ (fun x hx => hall x (List.mem_cons_of_mem s0 hx))

theorem matchOne_empty_req (s0 : ExtractedSkill) (rest : List ExtractedSkill)
    (req : List Char) (hreq : normalized req = [])
    (hne : ∀ s ∈ (s0 :: rest), normalized s.skill ≠ []) :
    matchOne (s0 :: rest) req
      = ⟨req, s0.skill, (0.85 : ℚ) * s0.confidence,
          inferProficiencyLevel s0.skill, false⟩ := by
  have hall : ∀ s ∈ (s0 :: rest), calculateSimilarity req s.skill = 0.85 :=
    fun s hsm => sim_of_empty_req req s.skill hreq (hne s hsm)
  unfold matchOne
  rw [findBestMatch_all85 req s0 rest hall]

/-- Claim C10 counterexample: with the required competency `""` and the
single extracted skill `" "` (whitespace-only label, confidence 4/5), both
normalize to the empty string, so the *exact-match* rule fires: the match is
made with similarity 1 and confidence `1 × 4/5`, not `0.85 × 4/5` as the
claim states. -/
theorem claimC10_counterexample :
    matchCompetencies [⟨" ".data, 4/5, "technical".data⟩] [[]]
      = [⟨[], " ".data, 1 * (4/5 : ℚ), .Beginner, false⟩]
    ∧ (1 * (4/5 : ℚ)) ≠ 0.85 * (4/5 : ℚ) := by
  constructor
  · have hsim : calculateSimilarity [] " ".data = 1 := by
      unfold calculateSimilarity
      rw [if_pos (by decide)]
    have hprof : inferProficiencyLevel " ".data = ProficiencyLevel.Beginner := by decide
    have hmo : matchOne [⟨" ".data, 4/5, "technical".data⟩] []
        = ⟨[], " ".data, 1 * (4/5 : ℚ), .Beginner, false⟩ := by
      unfold matchOne findBestMatch
      rw [List.foldl_cons]
      have hstep : bestMatchStep [] (none, 0) ⟨" ".data, 4/5, "technical".data⟩
          = (some ⟨[], " ".data, 1 * (4/5 : ℚ), .Beginner, false⟩, 1) := by
        simp only [bestMatchStep, hsim, hprof]
        rw [if_pos ⟨show (0 : ℚ) < 1 by norm_num, show (0.5 : ℚ) < 1 by norm_num⟩]
      rw [hstep]
      rfl
    unfold matchCompetencies
    rw [List.map_singleton, hmo]
    exact List.perm_singleton.mp (List.mergeSort_perm _ _)
  · norm_num

/-- Claim C10 (amended): if a required competency normalizes to the empty
string and the extracted-skill list is non-empty, that competency is always
matched — its entry has `gap = false`, with no condition on the skill
labels, because every skill scores similarity above 0.5 against it (0.85 by
the containment rule when the skill's label normalizes to something
non-empty, and exactly 1 by the exact-equality rule when the skill's label
also normalizes to empty). Provided no extracted skill's label normalizes
to the empty string, the first extracted skill in list order is selected
with `confidenceScore = 0.85 ×` that skill's confidence. -/
theorem claimC10_amended (s0 : ExtractedSkill) (rest : List ExtractedSkill)
    (reqs : List (List Char)) (text : List Char) (c : List Char)
    (hreq : normalized c = []) :
    (c ∈ reqs →
      ∃ m ∈ (scoreCompetencies (s0 :: rest) reqs text).competencyMatches,
        m.competency = c)
    ∧ (∀ m ∈ (scoreCompetencies (s0 :: rest) reqs text).competencyMatches,
        m.competency = c → m.gap = false)
    ∧ (∀ s : ExtractedSkill, (0.5 : ℚ) < calculateSimilarity c s.skill)
    ∧ (∀ s : ExtractedSkill, normalized s.skill = [] →
        calculateSimilarity c s.skill = 1)
    ∧ ((∀ s ∈ (s0 :: rest), normalized s.skill ≠ []) →
      ∀ m ∈ (scoreCompetencies (s0 :: rest) reqs text).competencyMatches,
        m.competency = c →
        m = ⟨c, s0.skill, (0.85 : ℚ) * s0.confidence,
          inferProficiencyLevel s0.skill, false⟩) := by
  rw [scoreCompetencies_matches]
  refine ⟨?_, ?_, ?_, ?_, ?_⟩
  · intro hc
    exact ⟨matchOne (s0 :: rest) c,
      (mem_matchCompetencies_iff _ _ _).mpr ⟨c, hc, rfl⟩, matchOne_competency _ _⟩
  · intro m hm hmc
    rcases (mem_matchCompetencies_iff _ _ m).mp hm with ⟨req, hreqm, rfl⟩
    have hrc : req = c := (matchOne_competency _ _).symm.trans hmc
    subst hrc
    by_cases hg : (matchOne (s0 :: rest) req).gap = true
    · exfalso
      have hle := (matchOne_gap_iff _ _).mp hg s0 (List.mem_cons_self s0 rest)
      exact absurd (sim_of_empty_req_gt_half req s0.skill hreq) (not_lt.mpr hle)
    · rw [← Bool.not_eq_true]
      exact hg
  · intro s
    exact sim_of_empty_req_gt_half c s.skill hreq
  · intro s hs
    exact sim_both_empty c s.skill hreq hs
  · intro hne m hm hmc
    rcases (mem_matchCompetencies_iff _ _ m).mp hm with ⟨req, hreqm, rfl⟩
    have hrc : req = c := (matchOne_competency _ _).symm.trans hmc
    subst hrc
    exact matchOne_empty_req s0 rest req hreq hne

/-- Witness for the amended claim C10: required competency `""`, one skill
"Python" at confidence 9/10. -/
theorem claimC10_amended_witness :
    normalized [] = ([] : List Char)
    ∧ ((([] : List Char) ∈ [([] : List Char)] →
      ∃ m ∈ (scoreCompetencies [⟨"Python".data, 9/10, "technical".data⟩]
          [[]] []).competencyMatches, m.competency = [])
    ∧ (∀ m ∈ (scoreCompetencies [⟨"Python".data, 9/10, "technical".data⟩]
        [[]] []).competencyMatches, m.competency = [] → m.gap = false)
    ∧ (∀ s : ExtractedSkill, (0.5 : ℚ) < calculateSimilarity [] s.skill)
    ∧ (∀ s : ExtractedSkill, normalized s.skill = [] →
        calculateSimilarity [] s.skill = 1)
    ∧ ((∀ s ∈ [(⟨"Python".data, 9/10, "technical".data⟩ : ExtractedSkill)],
        normalized s.skill ≠ []) →
      ∀ m ∈ (scoreCompetencies [⟨"Python".data, 9/10, "technical".data⟩]
        [[]] []).competencyMatches,
        m.competency = [] →
        m = ⟨[], "Python".data, (0.85 : ℚ) * (9/10 : ℚ),
          inferProficiencyLevel "Python".data, false⟩)) :=
  ⟨by decide,
    claimC10_amended ⟨"Python".data, 9/10, "technical".data⟩ [] [[]] [] []
      (by decide)⟩

/-! ### Resume parser: education extraction

`EDUCATION_PATTERNS` in `resumeParser.ts` is a module-level array of
regular expressions carrying the `g` and `i` flags.  A `g`-flagged regex
object is stateful: `regex.test(line)` starts searching at the object's
`lastIndex`, sets `lastIndex` past the match on success, and resets it to 0
on failure.  Because the array is module-level, this state persists across
lines *and across calls* of `extractEducation`.  The embedding makes the
five `lastIndex` values an explicit state (a list of five naturals,
initially all zero). -/

/-- The five education levels. -/
inductive EduLevel where
  | HighSchool
  | Bachelor
  | Master
  | PhD
  | Certification
deriving DecidableEq

/-- The `ExtractedEducation` record of `resumeParser.ts`. -/
structure ExtractedEducation where
  degree : List Char
  field : List Char
  institution : List Char
  year : Option Nat
  level : EduLevel
deriving DecidableEq

/-- The five education patterns, each as its list of literal alternatives
(lowercase; `b\.s` is the escaped literal "b.s") with its level, in source
order. -/
def EDUCATION_PATTERNS : List (List (List Char) × EduLevel) :=
  [(["bachelor".data, "b.s".data, "b.a".data, "undergraduate".data], .Bachelor),
   (["master".data, "m.s".data, "m.a".data, "graduate".data], .Master),
   (["phd".data, "doctorate".data], .PhD),
   (["certification".data, "certified".data, "cert".data], .Certification),
   (["high school".data, "secondary".data], .HighSchool)]

/-- First alternative (in pattern order) matching at the head of `s`,
returning its length. -/
def firstAltAt (alts : List (List Char)) (s : List Char) : Option Nat :=
  alts.findSome? (fun alt => if alt.isPrefixOf s then some alt.length else none)

/-- Leftmost match of an alternation of literals at a position `≥ li`,
returning (start, end). -/
def findAltFrom (alts : List (List Char)) (line : List Char) (li : Nat) :
    Option (Nat × Nat) :=
  (List.range (line.length + 1)).findSome? (fun i =>
    if li ≤ i then (firstAltAt alts (line.drop i)).map (fun len => (i, i + len))
    else none)

/-- Embeds `regex.test(line)` for a `g`-flagged alternation of literals:
returns the test result and the new `lastIndex` (end of match on success,
0 on failure). -/
def regexTestG (alts : List (List Char)) (line : List Char) (li : Nat) : Bool × Nat :=
  match findAltFrom alts line li with
  | some (_, e) => (true, e)
  | none => (false, 0)

/-- The `for … of EDUCATION_PATTERNS` loop with `break` on the first
(stateful) hit, threading the five `lastIndex` values. -/
def eduScanPatterns : List (List (List Char) × EduLevel) → List Nat → List Char →
    Option EduLevel × List Nat
  | [], st, _ => (none, st)
  | _ :: _, [], _ => (none, [])
  | p :: ps, li :: st, lineLower =>
    let r := regexTestG p.1 lineLower li
    if r.1 then (some p.2, r.2 :: st)
    else
      match eduScanPatterns ps st lineLower with
      | (res, st') => (res, r.2 :: st')

/-- Length of the maximal run of characters satisfying `p`. -/
def countWhile (p : Char → Bool) (l : List Char) : Nat := (l.takeWhile p).length

/-- `l.drop start |>.take len`: the substring of length `len` at `start`. -/
def slice (l : List Char) (start len : Nat) : List Char := (l.drop start).take len

/-- The character class `[a-z\s&]` under the `i` flag. -/
def inClassDeg1 (c : Char) : Bool := c.isLower || c.isUpper || c.isWhitespace || c = '&'

/-- The character class `[a-z\s]` under the `i` flag. -/
def inClassDeg2 (c : Char) : Bool := c.isLower || c.isUpper || c.isWhitespace

/-- The character class `[a-z\s&\.]` under the `i` flag. -/
def inClassInst (c : Char) : Bool :=
  c.isLower || c.isUpper || c.isWhitespace || c = '&' || c = '.'

/-- The character class `[a-z0-9&\s\.]` under the `i` flag. -/
def inClassComp (c : Char) : Bool :=
  c.isLower || c.isUpper || c.isDigit || c = '&' || c.isWhitespace || c = '.'

/-- `hi, hi-1, …, lo` (empty when `hi < lo`): the greedy backtracking order
of a bounded quantifier. -/
def descRange (lo hi : Nat) : List Nat := (List.range' lo (hi + 1 - lo)).reverse

/-- One attempt of `/([a-z\s&]\x7b2,50\x7d)\s+in\s+([a-z\s]\x7b2,50\x7d)/i` at
position `p`, with the standard greedy/backtracking order: longest group 1
first, then longest whitespace runs, the literal "in", and a greedy group 2. -/
def degreeFieldAt (line lower : List Char) (p : Nat) : Option (List Char × List Char) :=
  let run1 := countWhile inClassDeg1 (line.drop p)
  (descRange 2 (min 50 run1)).findSome? (fun l1 =>
    let q := p + l1
    let runS := countWhile isWs (line.drop q)
    (descRange 1 runS).findSome? (fun s1 =>
      if "in".data.isPrefixOf (lower.drop (q + s1)) then
        let aft := q + s1 + 2
        let runS2 := countWhile isWs (line.drop aft)
        (descRange 1 runS2).findSome? (fun s2 =>
          let g2 := aft + s2
          let run2 := countWhile inClassDeg2 (line.drop g2)
          if 2 ≤ run2 then some (slice line p l1, slice line g2 (min 50 run2))
          else none)
      else none))

/-- Embeds `line.match(/([a-z\s&]\x7b2,50\x7d)\s+in\s+([a-z\s]\x7b2,50\x7d)/i)`:
leftmost match, returning the two capture groups. -/
def degreeFieldMatch (line : List Char) : Option (List Char × List Char) :=
  (List.range (line.length + 1)).findSome? (fun p => degreeFieldAt line (jsToLower line) p)

/-- Numeric value of a digit string. -/
def digitsToNat (l : List Char) : Nat :=
  l.foldl (fun n c => n * 10 + (c.toNat - '0'.toNat)) 0

/-- Embeds `line.match(/\b(19|20)\d\x7b2\x7d\b/)`: the first word-bounded
four-digit number starting 19 or 20, parsed with `parseInt`. -/
def yearFind (line : List Char) : Option Nat :=
  (List.range (line.length + 1)).findSome? (fun p =>
    let ds := slice line p 4
    if boundaryAt line p && decide (ds.length = 4) && ds.all Char.isDigit
        && ("19".data.isPrefixOf ds || "20".data.isPrefixOf ds)
        && boundaryAt line (p + 4)
    then some (digitsToNat ds) else none)

/-- First alternative matching at position `p` of the lowered line,
returning its length. -/
def altPrefixAt (alts : List (List Char)) (lower : List Char) (p : Nat) : Option Nat :=
  alts.findSome? (fun alt => if alt.isPrefixOf (lower.drop p) then some alt.length else none)

/-- One attempt of `(?:alt1|alt2|…)\s+(CLASS\x7b2,50\x7d)` at position `p`
(used by the institution and company clauses). -/
def clauseMatchAt (cls : Char → Bool) (line lower : List Char)
    (alts : List (List Char)) (p : Nat) : Option (List Char) :=
  (altPrefixAt alts lower p).bind (fun alen =>
    let q := p + alen
    let runS := countWhile isWs (line.drop q)
    (descRange 1 runS).findSome? (fun s1 =>
      let g := q + s1
      let run := countWhile cls (line.drop g)
      if 2 ≤ run then some (slice line g (min 50 run)) else none))

/-- Leftmost match of an `(?:…)\s+(CLASS\x7b2,50\x7d)` clause. -/
def clauseFind (cls : Char → Bool) (alts : List (List Char)) (line : List Char) :
    Option (List Char) :=
  (List.range (line.length + 1)).findSome? (fun p =>
    clauseMatchAt cls line (jsToLower line) alts p)

/-- Embeds `extractInstitution`. -/
def extractInstitution (line : List Char) : List Char :=
  match clauseFind inClassInst ["from".data, "at".data, ",".data] line with
  | some g => jsTrim g
  | none => "Unknown".data

/-- One line of `extractEducation`: stateful pattern scan (priority order,
first hit wins, `break`), then the degree/field phrase requirement. -/
def eduLine (line : List Char) (st : List Nat) : Option ExtractedEducation × List Nat :=
  match eduScanPatterns EDUCATION_PATTERNS st (jsToLower line) with
  | (none, st') => (none, st')
  | (some lvl, st') =>
    match degreeFieldMatch line with
    | some (deg, fld) =>
      (some ⟨jsTrim deg, jsTrim fld, extractInstitution line, yearFind line, lvl⟩, st')
    | none => (none, st')

/-- Embeds `extractEducation`, with the five `lastIndex` values as explicit
state (they are module state in the source). -/
def extractEducationSt (resumeText : List Char) (st : List Nat) :
    List ExtractedEducation × List Nat :=
  (resumeText.splitOn '\n').foldl
    (fun acc line =>
      match eduLine line acc.2 with
      | (some e, st') => (acc.1 ++ [e], st')
      | (none, st') => (acc.1, st'))
    ([], st)

/-- The `lastIndex` state of a freshly loaded module: all five zero. -/
def eduInitState : List Nat := [0, 0, 0, 0, 0]

/-! ### Resume parser: experience extraction -/

/-- The `ExtractedExperience` record of `resumeParser.ts`. -/
structure ExtractedExperience where
  jobTitle : List Char
  company : List Char
  duration : List Char
  yearsInRole : Int
  responsibilities : List (List Char)
  skills : List (List Char)
deriving DecidableEq

/-- The job-title cues of the `jobTitleMatch` alternation, in source
order. -/
def TITLE_CUES : List (List Char) :=
  ["software engineer".data, "developer".data, "manager".data, "analyst".data,
   "architect".data, "lead".data, "director".data, "designer".data, "product".data,
   "business".data, "data scientist".data, "ml engineer".data, "qa engineer".data]

/-- Embeds `line.match(/(?:^|\s)(title1|title2|…)/i)`: leftmost attempt
position; at a position the `^` branch applies only at 0, otherwise a
whitespace character is consumed and the cue alternation is tried next,
returning capture group 1 (original casing). -/
def jobTitleFind (line : List Char) : Option (List Char) :=
  (List.range (line.length + 1)).findSome? (fun p =>
    (if p = 0 then
      (altPrefixAt TITLE_CUES (jsToLower line) 0).map (fun len => slice line 0 len)
    else none)
    <|>
    (if decide (p < line.length) && isWs (line.getD p ' ') then
      (altPrefixAt TITLE_CUES (jsToLower line) (p + 1)).map
        (fun len => slice line (p + 1) len)
    else none))

/-- Embeds `line.match(/(?:at|@|,)\s+([a-z0-9&\s\.]\x7b2,50\x7d)/i)`. -/
def companyFind (line : List Char) : Option (List Char) :=
  clauseFind inClassComp ["at".data, "@".data, ",".data] line

/-- The second capture of the duration pattern:
a four-digit year, `present` or `current`. -/
inductive DurEnd where
  | yearEnd (y : Nat)
  | presentEnd
  | currentEnd
deriving DecidableEq

/-- Exactly four digits at position `p`, parsed. -/
def fourDigitsAt (line : List Char) (p : Nat) : Option Nat :=
  let ds := slice line p 4
  if decide (ds.length = 4) && ds.all Char.isDigit then some (digitsToNat ds) else none

/-- One attempt of `/(\d\x7b4\x7d)\s*[-–]\s*(\d\x7b4\x7d|present|current)/i` at
position `p`; returns (whole match, first year, second capture). -/
def durationAt (line lower : List Char) (p : Nat) :
    Option (List Char × Nat × DurEnd) :=
  (fourDigitsAt line p).bind (fun y1 =>
    let q := p + 4
    let s1 := countWhile isWs (line.drop q)
    let d := q + s1
    if decide (line.getD d '?' = '-') || decide (line.getD d '?' = '–') then
      let r := d + 1
      let s2 := countWhile isWs (line.drop r)
      let g := r + s2
      match fourDigitsAt line g with
      | some y2 => some (slice line p (g + 4 - p), y1, .yearEnd y2)
      | none =>
        if "present".data.isPrefixOf (lower.drop g) then
          some (slice line p (g + 7 - p), y1, .presentEnd)
        else if "current".data.isPrefixOf (lower.drop g) then
          some (slice line p (g + 7 - p), y1, .currentEnd)
        else none
    else none)

/-- Embeds the `durationMatch` regex search (leftmost match). -/
def durationFind (line : List Char) : Option (List Char × Nat × DurEnd) :=
  (List.range (line.length + 1)).findSome? (fun p =>
    durationAt line (jsToLower line) p)

/-- Embeds `calculateYearsInRole`: `max(1, endYear - startYear)`, with
`present`/`current` resolving to `new Date().getFullYear()` — the current
year, an implicit input of the source made explicit here. -/
def calculateYearsInRole (dur : Option (List Char × Nat × DurEnd))
    (currentYear : Int) : Int :=
  match dur with
  | none => 1
  | some (_, y1, e) =>
    max 1 ((match e with
      | .yearEnd y2 => (y2 : Int)
      | .presentEnd => currentYear
      | .currentEnd => currentYear) - (y1 : Int))

/-- Embeds the bullet-line test `/^[\s]*[-•*]/`. -/
def bulletTest (line : List Char) : Bool :=
  match (line.dropWhile isWs).head? with
  | some c => c = '-' || c = '•' || c = '*'
  | none => false

/-- Embeds `line.replace(/^[\s]*[-•*]\s*/, '').trim()`. -/
def stripBullet (line : List Char) : List Char :=
  jsTrim (((line.dropWhile isWs).drop 1).dropWhile isWs)

/-- The record opened for a title-match line. -/
def mkRole (line : List Char) (title : List Char) (currentYear : Int) :
    ExtractedExperience :=
  ⟨jsTrim title,
   (match companyFind line with | some c => jsTrim c | none => "Unknown".data),
   (match durationFind line with | some (s, _, _) => s | none => "Unknown".data),
   calculateYearsInRole (durationFind line) currentYear,
   [], []⟩

/-- One line of the `extractExperience` scan: a title match closes any open
record and opens a new one; afterwards a bullet line appends to the open
record's responsibilities. -/
def expLine (currentYear : Int)
    (acc : List ExtractedExperience × Option ExtractedExperience) (line : List Char) :
    List ExtractedExperience × Option ExtractedExperience :=
  let st1 := match jobTitleFind line with
    | some title => (acc.1 ++ acc.2.toList, some (mkRole line title currentYear))
    | none => acc
  match st1.2 with
  | some role =>
    if bulletTest line then
      (st1.1, some { role with responsibilities := role.responsibilities ++ [stripBullet line] })
    else st1
  | none => st1

/-- Embeds `extractExperience`; the final open record is emitted at end of
input. -/
def extractExperience (resumeText : List Char) (currentYear : Int) :
    List ExtractedExperience :=
  let final := (resumeText.splitOn '\n').foldl (expLine currentYear) ([], none)
  final.1 ++ final.2.toList

/-! ### Resume parser: aggregation (`parseResume`) -/

/-- Embeds `calculateYearsExperience`:
`Math.round(sum * 10) / 10`. -/
def calculateYearsExperience (experience : List ExtractedExperience) : ℚ :=
  ((jsRound ((experience.foldl (fun total exp => total + (exp.yearsInRole : ℚ)) 0) * 10)) : ℚ)
    / 10

/-- Embeds `calculateExtractionScore`. -/
def calculateExtractionScore (skills : List ExtractedSkill)
    (education : List ExtractedEducation) (experience : List ExtractedExperience) : ℚ :=
  min 1 ((0.5 : ℚ) + (if 5 < skills.length then 0.2 else 0)
    + (if 0 < education.length then 0.15 else 0)
    + (if 0 < experience.length then 0.15 else 0))

/-- 32-bit signed wrap-around, for the `<< 5` and `& hash` steps of the
word hash. -/
def toInt32 (n : Int) : Int := ((n + 2 ^ 31) % 2 ^ 32) - 2 ^ 31

/-- The per-word hash of `generateSimpleEmbeddings`:
`hash = ((hash << 5) - hash) + charCode; hash = hash & hash`. -/
def jsWordHash (w : List Char) : Int :=
  w.foldl (fun h c => toInt32 (toInt32 (h * 32) - h + (c.toNat : Int))) 0

/-- Maximal runs of word characters, i.e. `text.match(/\b\w+\b/g)`. -/
def wordsOfAux : List Char → List Char → List (List Char)
  | [], cur => if cur.isEmpty then [] else [cur.reverse]
  | c :: rest, cur =>
    if isWordChar c then wordsOfAux rest (c :: cur)
    else if cur.isEmpty then wordsOfAux rest []
    else cur.reverse :: wordsOfAux rest []

/-- The word list of the embedding generator (`|| []` absorbed: no matches
give the empty list). -/
def wordsOf (text : List Char) : List (List Char) := wordsOfAux text []

/-- Add `q` at index `i` of a vector. -/
def bump (v : List ℚ) (i : Nat) (q : ℚ) : List ℚ :=
  v.mapIdx (fun j x => if j = i then x + q else x)

/-- Embeds the bucket histogram of `generateSimpleEmbeddings`: each word of
the lowercased text adds `1 / wordCount` to bucket `|hash| % 768`.  The
source then L2-normalizes this vector with a floating-point square root;
that final scaling has no exact rational counterpart and is left out of the
model — it is unreachable anyway, since `parseResume` throws inside
`extractSkills` before the embedding is ever computed. -/
def generateSimpleEmbeddings (text : List Char) : List ℚ :=
  let words := wordsOf (jsToLower text)
  words.foldl
    (fun emb w => bump emb ((jsWordHash w).natAbs % 768) (1 / (words.length : ℚ)))
    (List.replicate 768 0)

/-- `", "`-join, as in `Array.prototype.join(', ')`. -/
def joinComma : List (List Char) → List Char
  | [] => []
  | [x] => x
  | x :: xs => x ++ ", ".data ++ joinComma xs

/-- JavaScript number-to-string for the nonnegative one-decimal values
produced by `calculateYearsExperience` (an integer prints without a decimal
point). -/
def ratOneDecimal (x : ℚ) : List Char :=
  let n : Nat := (⌊x * 10⌋).toNat
  if n % 10 = 0 then (Nat.repr (n / 10)).data
  else (Nat.repr (n / 10)).data ++ ".".data ++ (Nat.repr (n % 10)).data

/-- Embeds `generateSummary`. -/
def generateSummary (skills : List ExtractedSkill)
    (experience : List ExtractedExperience) (yearsExperience : ℚ) : List Char :=
  ratOneDecimal yearsExperience ++ " years of experience as ".data
    ++ (match experience.head? with
        | some e => e.jobTitle
        | none => "Professional".data)
    ++ " with expertise in ".data
    ++ joinComma ((skills.take 5).map (fun s => s.skill))
    ++ ".".data

/-- The `ParsedResume` record of `resumeParser.ts` (the `embeddings` field
holds the pre-normalization histogram, see `generateSimpleEmbeddings`). -/
structure ParsedResume where
  skills : List ExtractedSkill
  education : List ExtractedEducation
  experience : List ExtractedExperience
  totalYearsExperience : ℚ
  summary : List Char
  embeddings : List ℚ
  extractionScore : ℚ
deriving DecidableEq

/-- Embeds `parseResume`.  Two inputs of the source are implicit and made
explicit here: the `lastIndex` state of the module-level education regexes
(threaded in and out), and the current year read from `new Date()`.  A
thrown exception is an `Except.error`; since `extractSkills` is called
first and always throws (invalid "C++" pattern), the error branch is
always taken and the education state is returned unchanged. -/
def parseResume (resumeText : List Char) (eduState : List Nat) (currentYear : Int) :
    Except Unit ParsedResume × List Nat :=
  match extractSkills resumeText with
  | .error e => (.error e, eduState)
  | .ok skills =>
    match extractEducationSt resumeText eduState with
    | (education, eduState') =>
      let experience := extractExperience resumeText currentYear
      let totalYearsExperience := calculateYearsExperience experience
      let extractionScore := calculateExtractionScore skills education experience
      let embeddings := generateSimpleEmbeddings resumeText
      let summary := generateSummary skills experience totalYearsExperience
      (.ok ⟨skills, education, experience, totalYearsExperience, summary, embeddings,
        extractionScore⟩, eduState')

theorem parseResume_error (resumeText : List Char) (eduState : List Nat)
    (currentYear : Int) :
    parseResume resumeText eduState currentYear = (.error (), eduState) := by
  unfold parseResume
  rw [extractSkills_error]

/-- Claim C3 (code-bug evidence): the claim says `parseResume` is
deterministic — two successive calls on the same text return equal
`ParsedResume` values.  In the code, the module-level `g`-flagged education
regexes carry `lastIndex` state across calls: on `"bachelor in science"`,
the first call of the education extractor emits one Bachelor record and
leaves `lastIndex = 8`, and an immediately repeated call on the same text
emits none.  Moreover `parseResume` itself never returns a `ParsedResume`
at all: it throws on every input while building the regex for the keyword
"C++" inside `extractSkills`, leaving the education state untouched. -/
theorem claimC3_determinism_broken :
    (extractEducationSt "bachelor in science".data eduInitState).1
      = [⟨"bachelor".data, "science".data, "Unknown".data, none, .Bachelor⟩]
    ∧ (extractEducationSt "bachelor in science".data
        (extractEducationSt "bachelor in science".data eduInitState).2).1 = []
    ∧ (extractEducationSt "bachelor in science".data eduInitState).1
        ≠ (extractEducationSt "bachelor in science".data
            (extractEducationSt "bachelor in science".data eduInitState).2).1
    ∧ ∀ (resumeText : List Char) (eduState : List Nat) (currentYear : Int),
        parseResume resumeText eduState currentYear = (.error (), eduState) :=
  ⟨by decide, by decide, by decide, parseResume_error⟩

/-- Claim C6 (code-bug evidence): the claim says education extraction tests
the level patterns per line in the fixed priority order with the first
matching pattern winning.  On the two-line text
`"bachelor in arts\nbachelor graduate in science"`, the second line
contains the Bachelor keyword `"bachelor"` (shown by the `containsSub`
conjunct), so the first matching pattern in priority order is Bachelor; yet
the emitted record for that line carries level Master, because the Bachelor
regex's `lastIndex` (left at 8 by the first line) makes its stateful test
miss the line-initial `"bachelor"`, and the Master pattern's alternative
`"graduate"` fires instead. -/
theorem claimC6_priority_broken :
    (extractEducationSt "bachelor in arts\nbachelor graduate in science".data
        eduInitState).1
      = [⟨"bachelor".data, "arts".data, "Unknown".data, none, .Bachelor⟩,
         ⟨"bachelor graduate".data, "science".data, "Unknown".data, none, .Master⟩]
    ∧ containsSub (jsToLower "bachelor graduate in science".data) "bachelor".data = true
    ∧ EduLevel.Master ≠ EduLevel.Bachelor :=
  ⟨by decide, by decide, by decide⟩

/-- Claim C5 counterexample: on the Scenario-2 text, `parseResume` yields no
`ExtractedExperience` at all — it throws while compiling the "C++" keyword
pattern — and even the experience extractor alone yields an empty
responsibilities list (the bullet sits mid-line, not at a line start), not
the claimed one-element list. -/
theorem claimC5_counterexample :
    (parseResume
        "Senior Software Engineer at Acme Corp, 2015-2020. - Led a team of 5 engineers.".data
        eduInitState 2026).1 = .error ()
    ∧ (extractExperience
        "Senior Software Engineer at Acme Corp, 2015-2020. - Led a team of 5 engineers.".data
        2026).map (fun e => e.responsibilities) = [[]]
    ∧ ([[]] : List (List (List Char))) ≠ [["Led a team of 5 engineers.".data]] :=
  ⟨by rw [parseResume_error], by decide, by decide⟩

/-- Claim C5 (amended): on the Scenario-2 text, the experience extractor
(the stage `parseResume` would run if `extractSkills` did not throw) yields
exactly one `ExtractedExperience` whose title "Software Engineer" contains
"engineer" case-insensitively and whose `yearsInRole` is 5 — but its
responsibilities list is empty: the bullet `" - Led …"` sits mid-line and
the bullet pattern only matches at the start of a line. -/
theorem claimC5_amended (currentYear : Int) :
    extractExperience
        "Senior Software Engineer at Acme Corp, 2015-2020. - Led a team of 5 engineers.".data
        currentYear
      = [⟨"Software Engineer".data, "Acme Corp".data, "2015-2020".data, 5, [], []⟩]
    ∧ containsSub (jsToLower "Software Engineer".data) "engineer".data = true :=
  ⟨rfl, by decide⟩

end SmartRec
